import Mathlib

/-!
# uberspace_vmail: the VMailMgr password table

A shallow embedding of `vptable/vpentry.go` and `vptable/vptable.go`, and of the two
loops of `main.go` that apply the directory records to the table.

* Go `string` and `[]byte` values are byte lists (`Bytes`); the conversions
  `string(b)` and `[]byte(s)` are the identity on them.
* Go `uint` is 64 bits wide here: `uint(math.MaxUint64)` in `vpentry.go` is a
  constant conversion that only compiles where `uint` has 64 bits.  Values of
  type `uint` are natural numbers below `2^64`; conversions from and to `int64`
  are written with an explicit `% 2^64`.
* A run-time panic is an explicit outcome (`Exec.panic`), so that "the caller
  gets a value back" and "the goroutine aborts" are different results.
* A map field may be nil in a Go struct value.  `VPTable` below is the table with an
  allocated map (what `New`, `LoadFromFile` and the methods produce); `TableValue`
  adds the nil map of the zero value `VPTable{}`, on which `Upsert` panics.
* A slice is modelled with its backing array: the cells below its length
  (`vis`) and the cells between its length and its capacity (`spare`), because
  `Remove` shifts cells in place while a `range` loop still reads them.
-/

namespace Vptable

/-! ## Bytes, panics, outcomes -/

/-- A Go `string` or `[]byte`. -/
abbrev Bytes := List UInt8

/-- ASCII text as a byte string (used to write concrete inputs). -/
def str (s : String) : Bytes := s.toList.map (fun c => UInt8.ofNat c.toNat)

/-- The two errors of `strconv.ParseUint`: `ErrSyntax` and `ErrRange`. -/
inductive NumError
  | badSyntax
  | outOfRange
deriving DecidableEq, Repr

/-- An `error` value returned by a collaborator (crypt, the cdb container). -/
structure GoError where
  msg : String
deriving DecidableEq, Repr

/-- Run-time panics the modelled code can raise. -/
inductive Panic
  /-- Index expression `s[i]` with `i ≥ len(s)`. -/
  | indexOutOfRange
  /-- Slice expression `s[a:]` with `a > len(s)`. -/
  | sliceBounds
  /-- The explicit `panic(err)` of `atou`. -/
  | numError (e : NumError)
  /-- Method call through a nil `*VPEntry`. -/
  | nilDeref
  /-- Assignment `m[k] = v` into a nil map. -/
  | nilMapWrite
deriving DecidableEq, Repr

/-- Outcome of running a piece of Go code: normal completion with a value, or a panic
that unwinds to the caller. -/
inductive Exec (α : Type)
  | done (a : α)
  | panic (p : Panic)
deriving DecidableEq, Repr

/-- Sequencing: a panic in the first part skips the rest. -/
def Exec.bind {α β : Type} : Exec α → (α → Exec β) → Exec β
  | .done a, f => f a
  | .panic p, _ => .panic p

instance : Monad Exec where
  pure := Exec.done
  bind := Exec.bind

/-- Normal completion (no panic). -/
def Exec.returns {α : Type} : Exec α → Bool
  | .done _ => true
  | .panic _ => false

/-- Index expression `s[i]`: panics when `i` is out of range. -/
def index {α : Type} (s : List α) (i : Nat) : Exec α :=
  match s[i]? with
  | some a => .done a
  | none => .panic .indexOutOfRange

/-! ## Library functions used by the codec -/

/-- `bytes.Join(parts, sep)`. -/
def bytesJoin : List Bytes → Bytes → Bytes
  | [], _ => []
  | [p], _ => p
  | p :: q :: rest, sep => p ++ sep ++ bytesJoin (q :: rest) sep

/-- `bytes.Split(s, []byte{sep})` and `strings.Split(s, string(sep))` for a one-byte
separator: all the pieces between the separators, `count(sep) + 1` of them. -/
def bytesSplit (sep : UInt8) : Bytes → List Bytes
  | [] => [[]]
  | b :: rest =>
    if b = sep then [] :: bytesSplit sep rest
    else
      match bytesSplit sep rest with
      | [] => [[b]]
      | p :: ps => (b :: p) :: ps

/-- `math.MaxUint64`. -/
def maxUint64 : Nat := 2 ^ 64 - 1

/-- Conversion `uint(x)` of an `int64` value. -/
def int64ToUint (z : Int) : Nat := (z % 2 ^ 64).toNat

/-- Conversion `int64(u)` of a `uint` value. -/
def uintToInt64 (u : Nat) : Int :=
  if u % 2 ^ 64 < 2 ^ 63 then ((u % 2 ^ 64 : Nat) : Int) else ((u % 2 ^ 64 : Nat) : Int) - 2 ^ 64

/-- The ASCII digit of `d`. -/
def digitByte (d : Nat) : UInt8 := UInt8.ofNat (48 + d)

/-- Digit loop of `strconv.FormatUint(u, 10)`: digits are produced from the right. -/
def formatUintLoop : Nat → Nat → Bytes → Bytes
  | 0, _, acc => acc
  | fuel + 1, u, acc =>
    if u < 10 then digitByte u :: acc
    else formatUintLoop fuel (u / 10) (digitByte (u % 10) :: acc)

/-- `strconv.FormatUint(u, 10)` for a 64-bit `u` (at most 20 digits). -/
def formatUint (u : Nat) : Bytes := formatUintLoop 20 u []

/-- Scanning loop of `strconv.ParseUint(s, 10, 64)`: `n` is the value read so far.
A byte that is not a decimal digit is a syntax error (letters are digits of a base
above 10, and `_` is only accepted for base 0); `cutoff = MaxUint64/10 + 1`. -/
def parseUintLoop : Bytes → Nat → Except NumError Nat
  | [], n => .ok n
  | c :: cs, n =>
    if 48 ≤ c.toNat ∧ c.toNat ≤ 57 then
      if n ≥ maxUint64 / 10 + 1 then .error .outOfRange
      else
        let n10 := (n * 10) % 2 ^ 64
        let n1 := (n10 + (c.toNat - 48)) % 2 ^ 64
        if n1 < n10 ∨ n1 > maxUint64 then .error .outOfRange
        else parseUintLoop cs n1
    else .error .badSyntax

/-- `strconv.ParseUint(s, 10, 64)`. -/
def parseUint (s : Bytes) : Except NumError Nat :=
  if s = [] then .error .badSyntax else parseUintLoop s 0

/-! ## `vpentry.go` -/

/-- A `time.Time` value as an instant: the seconds `Unix()` returns (an `int64`) and
the nanoseconds within that second.  Location and monotonic reading are not part of
the instant. -/
structure Time where
  sec : Int
  nsec : Nat
deriving DecidableEq, Repr

/-- `t.Unix()`. -/
def Time.Unix (t : Time) : Int := t.sec

/-- `time.Unix(sec, 0)`. -/
def timeUnix (sec : Int) : Time := { sec := sec, nsec := 0 }

/-- `VPEntry` of `vpentry.go`. -/
structure VPEntry where
  Password : Bytes
  Directory : Bytes
  Forwards : Bytes
  Personal : Bytes
  HardQuota : Nat
  SoftQuota : Nat
  MsgSize : Nat
  MsgCount : Nat
  ChangedAt : Time
deriving DecidableEq, Repr

/-- The ranges the Go types give the numeric fields: four `uint` values, an `int64`
second count and a nanosecond count below one second. -/
def VPEntry.inRange (v : VPEntry) : Prop :=
  v.HardQuota < 2 ^ 64 ∧ v.SoftQuota < 2 ^ 64 ∧ v.MsgSize < 2 ^ 64 ∧ v.MsgCount < 2 ^ 64 ∧
    -(2 : Int) ^ 63 ≤ v.ChangedAt.sec ∧ v.ChangedAt.sec < 2 ^ 63 ∧ v.ChangedAt.nsec < 10 ^ 9

instance (v : VPEntry) : Decidable v.inRange := by
  unfold VPEntry.inRange; infer_instance

/-- The five bytes `"\x02\x0a\x01\x08\x01"` that open every record. -/
def header : Bytes := [0x02, 0x0a, 0x01, 0x08, 0x01]

/-- `utoa` of `vpentry.go`. -/
def utoa (u : Nat) : Bytes :=
  if u = maxUint64 then [0x2d] else formatUint u

/-- `atou` of `vpentry.go`; a parse error is a panic. -/
def atou (i : Bytes) : Exec Nat :=
  if i.length = 1 ∧ i[0]? = some 0x2d then .done maxUint64
  else
    match parseUint i with
    | .ok u64 => .done u64
    | .error err => .panic (.numError err)

/-- `VPEntry.encode` of `vpentry.go`. -/
def VPEntry.encode (v : VPEntry) : Bytes :=
  bytesJoin [
    header,
    v.Password,
    v.Directory,
    v.Forwards,
    v.Personal,
    utoa v.HardQuota,
    utoa v.SoftQuota,
    utoa v.MsgSize,
    utoa v.MsgCount,
    utoa (int64ToUint v.ChangedAt.Unix),
    utoa maxUint64,
    []
  ] [0x00]

/-- `parseVpentry` of `vpentry.go`: the statements run in order, so the first index or
parse failure decides the panic. -/
def parseVpentry (i : Bytes) : Exec VPEntry :=
  let parts := bytesSplit 0x00 i
  (index parts 1).bind fun password =>
  (index parts 2).bind fun directory =>
  (index parts 3).bind fun forwards =>
  (index parts 4).bind fun personal =>
  ((index parts 5).bind atou).bind fun hardQuota =>
  ((index parts 6).bind atou).bind fun softQuota =>
  ((index parts 7).bind atou).bind fun msgSize =>
  ((index parts 8).bind atou).bind fun msgCount =>
  ((index parts 9).bind atou).bind fun changed =>
  .done {
    Password := password
    Directory := directory
    Forwards := forwards
    Personal := personal
    HardQuota := hardQuota
    SoftQuota := softQuota
    MsgSize := msgSize
    MsgCount := msgCount
    ChangedAt := timeUnix (uintToInt64 changed)
  }

/-- The salt alphabet `saltSrc` of `getSalt`. -/
def saltSrc : Bytes := str "./0123456789ABCDEFGHIJKLMNOPQRSTUVWXYZabcdefghijklmnopqrstuvwxyz"

/-- The constant `saltLength`. -/
def saltLength : Nat := 8

/-- What `UpdatePassword` takes from outside the package: the `crypt.Crypt` primitive
(password, then setting string), the stream of raw values behind the successive
`rand.Intn` calls of the process, and the instant `time.Now()` returns. -/
structure Env where
  crypt : Bytes → Bytes → Except GoError Bytes
  rnd : Nat → Nat
  now : Time

/-- The loop of `getSalt`: `pos` counts the random draws made so far; each round draws
`rand.Intn(len(saltSrc))` and appends that character. -/
def getSaltLoop (rnd : Nat → Nat) : Nat → Bytes → Nat → Bytes × Nat
  | 0, salt, pos => (salt, pos)
  | fuel + 1, salt, pos =>
    if salt.length < saltLength then
      let char := saltSrc.getD (rnd pos % saltSrc.length) 0
      getSaltLoop rnd fuel (salt ++ [char]) (pos + 1)
    else (salt, pos)

/-- `getSalt` of `vpentry.go`: the salt and the advanced draw counter. -/
def getSalt (rnd : Nat → Nat) (pos : Nat) : Bytes × Nat :=
  getSaltLoop rnd saltLength [] pos

/-- What a call of `UpdatePassword` leaves behind when it returns: the two results,
the entry behind the receiver pointer and the number of random draws made so far. -/
structure UpdateResult where
  changed : Bool
  err : Option GoError
  entry : VPEntry
  pos : Nat
deriving DecidableEq, Repr

/-- `VPEntry.UpdatePassword` of `vpentry.go`. -/
def VPEntry.UpdatePassword (env : Env) (pos : Nat) (v : VPEntry) (newPass : Bytes) :
    Exec UpdateResult :=
  let oldPwdParts := bytesSplit 0x24 v.Password
  (index oldPwdParts 2).bind fun salt =>
  match env.crypt newPass (str "$1$" ++ salt ++ str "$") with
  | .error err => .done { changed := false, err := some err, entry := v, pos := pos }
  | .ok newPwdOldSalt =>
    if newPwdOldSalt = v.Password then
      .done { changed := false, err := none, entry := v, pos := pos }
    else
      let drawn := getSalt env.rnd pos
      match env.crypt newPass (str "$1$" ++ drawn.1 ++ str "$") with
      | .error err => .done { changed := false, err := some err, entry := v, pos := drawn.2 }
      | .ok newPwd =>
        .done {
          changed := true
          err := none
          entry := { v with Password := newPwd, ChangedAt := env.now }
          pos := drawn.2
        }

/-! ## `vptable.go` -/

/-- A `[]string` with its backing array: `vis` are the cells below the length, `spare`
the cells from the length up to the capacity. -/
structure Slice where
  vis : List Bytes
  spare : List Bytes
deriving DecidableEq, Repr

/-- `append(s, x)`: written in place when there is spare capacity, otherwise into a
fresh array.  How much the runtime over-allocates is not modelled: the new cells
above the length are never read before they are written. -/
def Slice.append (s : Slice) (x : Bytes) : Slice :=
  match s.spare with
  | [] => { vis := s.vis ++ [x], spare := [] }
  | _ :: rest => { vis := s.vis ++ [x], spare := rest }

/-- A `*VPEntry`: `none` is the nil pointer. -/
abbrev EntryPtr := Option VPEntry

/-- `map[string]*VPEntry`: `none` for a key that is not in the map. -/
abbrev EntryMap := Bytes → Option EntryPtr

/-- `delete(m, key)`. -/
def EntryMap.delete (m : EntryMap) (key : Bytes) : EntryMap :=
  fun k => if k = key then none else m k

/-- `m[key] = entry`. -/
def EntryMap.set (m : EntryMap) (key : Bytes) (entry : EntryPtr) : EntryMap :=
  fun k => if k = key then some entry else m k

/-- `VPTable` of `vptable.go` with an allocated `entries` map, as `New` and
`LoadFromFile` make it and as every method leaves it.  The struct value whose map
field is nil (the zero value `VPTable{}`) is covered by `TableValue` below. -/
structure VPTable where
  order : Slice
  entries : EntryMap

/-- `New` of `vptable.go`. -/
def New : VPTable :=
  { order := { vis := [], spare := [] }, entries := fun _ => none }

/-- `VPTable.Get`. -/
def VPTable.Get (v : VPTable) (key : Bytes) : EntryPtr :=
  match v.entries key with
  | some entry => entry
  | none => none

/-- `VPTable.Users`: the keys of `order` in sequence (the returned slice shares the
backing array of `order`). -/
def VPTable.Users (v : VPTable) : List Bytes := v.order.vis

/-- The loop of `Remove`.  `range v.order` fixes the number of rounds (`steps` left,
`i` the current index) and the backing array when the loop starts; each round reads
cell `i` of that array as it is now.  On a match `v.order` becomes
`append(v.order[:i], v.order[i+1:]...)`: `v.order[i+1:]` panics when `i+1 > len`,
otherwise the cells above `i` move down by one inside the same array, the length
drops by one and the cell that was last keeps its old value. -/
def removeLoop (key : Bytes) : Nat → Nat → Slice → Exec Slice
  | 0, _, s => .done s
  | steps + 1, i, s =>
    match (s.vis ++ s.spare)[i]? with
    | none => .panic .indexOutOfRange
    | some e =>
      if e = key then
        if i + 1 ≤ s.vis.length then
          removeLoop key steps (i + 1)
            { vis := s.vis.take i ++ s.vis.drop (i + 1)
              spare := s.vis.drop (s.vis.length - 1) ++ s.spare }
        else .panic .sliceBounds
      else removeLoop key steps (i + 1) s

/-- `VPTable.Remove`. -/
def VPTable.Remove (v : VPTable) (key : Bytes) : Exec VPTable :=
  let entries := v.entries.delete key
  (removeLoop key v.order.vis.length 0 v.order).bind fun order =>
  .done { order := order, entries := entries }

/-- `VPTable.Upsert`. -/
def VPTable.Upsert (v : VPTable) (key : Bytes) (entry : EntryPtr) : VPTable :=
  let order := if (v.entries key).isSome then v.order else v.order.append key
  { order := order, entries := v.entries.set key entry }

/-- `VPTable` of `vptable.go` as a Go struct value: the `entries` field is a map value
that may be nil (`none`).  The type is exported, so code outside the package can
write the zero value `VPTable{}` without going through `New`. -/
structure TableValue where
  order : Slice
  entries : Option EntryMap

/-- A table with an allocated map as a struct value. -/
def VPTable.toValue (t : VPTable) : TableValue :=
  { order := t.order, entries := some t.entries }

/-- The zero value `VPTable{}`: nil slice, nil map. -/
def zeroTable : TableValue :=
  { order := { vis := [], spare := [] }, entries := none }

/-- `VPTable.Get` on a struct value: reading a nil map finds no key. -/
def TableValue.Get (v : TableValue) (key : Bytes) : EntryPtr :=
  match v.entries with
  | none => none
  | some m =>
    match m key with
    | some entry => entry
    | none => none

/-- `VPTable.Users` on a struct value. -/
def TableValue.Users (v : TableValue) : List Bytes := v.order.vis

/-- `VPTable.Upsert` on a struct value.  With a nil map the lookup finds nothing, the
key is appended to `order`, and the assignment `v.entries[key] = entry` panics. -/
def TableValue.Upsert (v : TableValue) (key : Bytes) (entry : EntryPtr) : Exec TableValue :=
  match v.entries with
  | none => .panic .nilMapWrite
  | some m =>
    let order := if (m key).isSome then v.order else v.order.append key
    .done { order := order, entries := some (m.set key entry) }

/-- The loop of `LoadFromFile` over the pairs the container iterator yields. -/
def loadLoop : List (Bytes × Bytes) → VPTable → Exec VPTable
  | [], vpt => .done vpt
  | (key, value) :: rest, vpt =>
    let order := vpt.order.append key
    (parseVpentry value).bind fun entry =>
    loadLoop rest { order := order, entries := vpt.entries.set key (some entry) }

/-- `LoadFromFile`: `opened` is what `cdb.Open` gives, an error or the container whose
iteration yields these key/value pairs. -/
def LoadFromFile (opened : Except GoError (List (Bytes × Bytes))) :
    Exec (Except GoError VPTable) :=
  match opened with
  | .error err => .done (.error err)
  | .ok pairs =>
    (loadLoop pairs { order := { vis := [], spare := [] }, entries := fun _ => none }).bind
      fun vpt => .done (.ok vpt)

/-- One call of the mutation interface of the table. -/
inductive Op
  | upsert (key : Bytes) (entry : EntryPtr)
  | remove (key : Bytes)

/-- Run a sequence of `Upsert` and `Remove` calls on a table, first call first. -/
def runOps : List Op → VPTable → Exec VPTable
  | [], v => .done v
  | .upsert key entry :: rest, v => runOps rest (v.Upsert key entry)
  | .remove key :: rest, v => (v.Remove key).bind (runOps rest)

/-! ## Reference definitions taken from the specification -/

/-- Decimal value of a digit string, most significant digit first. -/
def decimalValue (s : Bytes) : Nat :=
  s.foldl (fun n c => n * 10 + (c.toNat - 48)) 0

/-- A byte is an ASCII decimal digit. -/
def isDigit (c : UInt8) : Prop := 48 ≤ c.toNat ∧ c.toNat ≤ 57

instance (c : UInt8) : Decidable (isDigit c) := by
  unfold isDigit; infer_instance

/-- The canonical decimal form of `u`: digits only, no leading zero except for `0`
itself, and the digits denote `u`. -/
def IsCanonicalDecimal (s : Bytes) (u : Nat) : Prop :=
  s ≠ [] ∧ (∀ c ∈ s, isDigit c) ∧ (s.head? = some 48 → s = [48]) ∧ decimalValue s = u

/-- Specification of `remove(key)`: the occurrence of `key` is filtered out of the
order, the other keys keep their relative order. -/
def removeSpec (key : Bytes) (order : List Bytes) : List Bytes :=
  order.filter (fun k => k ≠ key)

/-! ## Conditions and concrete inputs used in the statements -/

/-- No string field of the entry contains the separator byte `0x00`. -/
def VPEntry.nulFree (v : VPEntry) : Prop :=
  (0x00 : UInt8) ∉ v.Password ∧ (0x00 : UInt8) ∉ v.Directory ∧
    (0x00 : UInt8) ∉ v.Forwards ∧ (0x00 : UInt8) ∉ v.Personal

instance (v : VPEntry) : Decidable v.nulFree := by
  unfold VPEntry.nulFree; infer_instance

/-- An account as the directory sync creates it: unlimited quotas, empty forwards. -/
def aliceEntry : VPEntry := {
  Password := str "$1$abcdefgh$0123456789abcdefghijkl"
  Directory := str "./users/alice"
  Forwards := []
  Personal := []
  HardQuota := maxUint64
  SoftQuota := maxUint64
  MsgSize := maxUint64
  MsgCount := maxUint64
  ChangedAt := { sec := 1500000000, nsec := 0 } }

/-- An entry whose password string holds a `0x00` byte between `x` and `y`. -/
def nulEntry : VPEntry := {
  Password := [0x78, 0x00, 0x79]
  Directory := str "d"
  Forwards := str "f"
  Personal := str "5"
  HardQuota := 1
  SoftQuota := 2
  MsgSize := 3
  MsgCount := 4
  ChangedAt := { sec := 6, nsec := 0 } }

/-- What decoding the record of `nulEntry` gives: every field moved by one place. -/
def nulEntryDecoded : VPEntry := {
  Password := str "x"
  Directory := str "y"
  Forwards := str "d"
  Personal := str "f"
  HardQuota := 5
  SoftQuota := 1
  MsgSize := 2
  MsgCount := 3
  ChangedAt := { sec := 4, nsec := 0 } }

/-- The table of the example scenario: keys `a`, `b`, `c` upserted in this order. -/
def abcTable : VPTable :=
  ((New.Upsert (str "a") (some aliceEntry)).Upsert (str "b") (some aliceEntry)).Upsert
    (str "c") (some aliceEntry)

/-- A field the decoder reads as a number without panicking, in the words of the
specification: the one byte `-`, or an unsigned decimal integer below `2^64`
(digits only, at least one). -/
def validNumber (f : Bytes) : Prop :=
  f = [0x2d] ∨ (f ≠ [] ∧ (∀ c ∈ f, isDigit c) ∧ decimalValue f < 2 ^ 64)

/-- A record of only three fields: header, password, directory. -/
def shortRecord : Bytes := bytesJoin [header, str "$1$abcdefgh$hash", str "./users/bob"] [0x00]

/-- A full twelve-field record whose hard quota field is the text `12MB`. -/
def badQuotaRecord : Bytes :=
  bytesJoin [header, str "$1$abcdefgh$hash", str "./users/bob", [], [], str "12MB",
    str "-", str "-", str "-", str "1500000000", str "-", []] [0x00]

deriving instance DecidableEq for Except

/-- A stand-in for the crypt primitive in concrete examples: the result is the setting
string (`$1$<salt>$`) followed by the password itself.  Like the real primitive it
never fails here and its result starts with the setting it was given. -/
def echoCrypt (pass setting : Bytes) : Except GoError Bytes := .ok (setting ++ pass)

/-- An environment whose random source yields `0` at every draw (so that `getSalt`
returns `........`) and whose clock reads second `1600000000`. -/
def zeroEnv : Env :=
  { crypt := echoCrypt, rnd := fun _ => 0, now := { sec := 1600000000, nsec := 5 } }

/-- An entry whose stored hash has the salt `abcdefgh` and matches the password
`secret` under `echoCrypt`. -/
def secretEntry : VPEntry :=
  { aliceEntry with Password := str "$1$abcdefgh$secret" }

/-- An entry whose stored hash already has the salt `........`. -/
def dotSaltEntry : VPEntry :=
  { aliceEntry with Password := str "$1$........$old" }

/-! ## `SaveToFile` and the sync steps of `main.go` -/

/-- The value a run completed with, if it did not panic. -/
def Exec.result? {α : Type} : Exec α → Option α
  | .done a => some a
  | .panic _ => none

/-- The twelve fields `encode` hands to `bytes.Join`, in order. -/
def VPEntry.fields (v : VPEntry) : List Bytes :=
  [header, v.Password, v.Directory, v.Forwards, v.Personal, utoa v.HardQuota, utoa v.SoftQuota,
    utoa v.MsgSize, utoa v.MsgCount, utoa (int64ToUint v.ChangedAt.Unix), utoa maxUint64, []]

/-- How the cdb writer behaves during one save: the error results of `cdb.Create`, of
the `n`-th `w.Put` call and of `w.Close` (`none` is a nil error). -/
structure Writer where
  createErr : Option GoError
  putErr : Nat → Option GoError
  closeErr : Option GoError

/-- What a call of `SaveToFile` that returns has done: the error it returned, the
`w.Put` calls it made in order, those of them that the writer accepted, and whether
the deferred `w.Close` finalized the file. -/
structure SaveResult where
  err : Option GoError
  puts : List (Bytes × Bytes)
  written : List (Bytes × Bytes)
  finalized : Bool
deriving DecidableEq, Repr

/-- The loop of `SaveToFile` over `v.order`.  `v.entries[key]` is a nil pointer for a
key that is not in the map or is mapped to nil, and `encode` through it panics.  The
result of `w.Put` is not looked at. -/
def saveLoop (w : Writer) (entries : EntryMap) :
    List Bytes → List (Bytes × Bytes) → List (Bytes × Bytes) →
      Exec (List (Bytes × Bytes) × List (Bytes × Bytes))
  | [], puts, written => .done (puts, written)
  | key :: rest, puts, written =>
    match entries key with
    | some (some entry) =>
      let pair := (key, entry.encode)
      match w.putErr puts.length with
      | none => saveLoop w entries rest (puts ++ [pair]) (written ++ [pair])
      | some _ => saveLoop w entries rest (puts ++ [pair]) written
    | _ => .panic .nilDeref

/-- `VPTable.SaveToFile`: the error of `cdb.Create` is returned; after the loop the
function returns nil and the deferred `w.Close()` runs, its result dropped. -/
def VPTable.SaveToFile (w : Writer) (v : VPTable) : Exec SaveResult :=
  match w.createErr with
  | some err => .done { err := some err, puts := [], written := [], finalized := false }
  | none =>
    (saveLoop w v.entries v.order.vis [] []).bind fun r =>
    .done { err := none, puts := r.1, written := r.2, finalized := w.closeErr.isNone }

/-- A writer without failures. -/
def goodWriter : Writer :=
  { createErr := none, putErr := fun _ => none, closeErr := none }

/-- The entry `retrieveUsers` of `main.go` builds from one directory record read at
instant `now`. -/
def directoryEntry (now : Time) (uid mailPassword mailDirectory mailForwards : Bytes) :
    VPEntry :=
  let directory := if mailDirectory = [] then str "./users/" ++ uid else mailDirectory
  { Password := mailPassword
    Directory := directory
    Forwards := mailForwards
    Personal := []
    HardQuota := maxUint64
    SoftQuota := maxUint64
    MsgSize := maxUint64
    MsgCount := maxUint64
    ChangedAt := now }

/-- One round of the first loop of `main`: the directory record `entry` of user `uid`
is compared with the stored entry in directory, forwards and password; without a
difference the table is left alone (`continue`), otherwise, and for a new user, the
record is upserted as it is. -/
def syncUser (vpt : VPTable) (uid : Bytes) (entry : VPEntry) : VPTable :=
  match vpt.Get uid with
  | some oldEntry =>
    let attrs : List Bytes :=
      (if oldEntry.Directory ≠ entry.Directory then [str "directory"] else []) ++
      (if oldEntry.Forwards ≠ entry.Forwards then [str "forwards"] else []) ++
      (if oldEntry.Password ≠ entry.Password then [str "password"] else [])
    if attrs.length = 0 then vpt else vpt.Upsert uid (some entry)
  | none => vpt.Upsert uid (some entry)

/-- The second loop of `main`: `range vpt.Users()` fixes the number of rounds and the
backing array, which is the array of `vpt.order`; each round reads cell `i` of that
array as it is now and calls `Remove` for a user that is not in `presentUsers`. -/
def removalLoop (presentUsers : List Bytes) : Nat → Nat → VPTable → Exec VPTable
  | 0, _, vpt => .done vpt
  | steps + 1, i, vpt =>
    match (vpt.order.vis ++ vpt.order.spare)[i]? with
    | none => .panic .indexOutOfRange
    | some u =>
      if u ∈ presentUsers then removalLoop presentUsers steps (i + 1) vpt
      else (vpt.Remove u).bind (removalLoop presentUsers steps (i + 1))

/-- The removal step of `main` on a table. -/
def removeAbsent (presentUsers : List Bytes) (vpt : VPTable) : Exec VPTable :=
  removalLoop presentUsers vpt.Users.length 0 vpt

/-- The order invariant of the table: no key twice in `order`, and the keys of `order`
are the keys of `entries`. -/
def VPTable.orderInvariant (t : VPTable) : Prop :=
  t.Users.Nodup ∧ ∀ k, k ∈ t.Users ↔ (t.entries k).isSome = true

/-- An entry whose stored hash is the empty string. -/
def emptyHashEntry : VPEntry := { aliceEntry with Password := [] }

/-- An entry last changed one second before the Unix epoch. -/
def preEpochEntry : VPEntry := { aliceEntry with ChangedAt := { sec := -1, nsec := 0 } }

/-- An entry last changed five seconds before the Unix epoch. -/
def earlyEntry : VPEntry := { aliceEntry with ChangedAt := { sec := -5, nsec := 0 } }

/-- A table in which key `a` is mapped to the nil pointer. -/
def nilTable : VPTable := New.Upsert (str "a") none

/-- A writer whose first `Put` fails. -/
def failingPutWriter : Writer :=
  { createErr := none, putErr := fun _ => some { msg := "put failed" }, closeErr := none }

/-- A writer whose `Close` fails. -/
def failingCloseWriter : Writer :=
  { createErr := none, putErr := fun _ => none, closeErr := some { msg := "close failed" } }

/-- The table with the one account `alice`. -/
def aliceTable : VPTable := New.Upsert (str "alice") (some aliceEntry)

/-- A container whose iteration yields the key `k` twice. -/
def dupContainer : List (Bytes × Bytes) :=
  [(str "k", aliceEntry.encode), (str "k", aliceEntry.encode)]

/-- A table whose order holds the key `k` twice, as loading `dupContainer` gives it. -/
def dupTable : VPTable :=
  { order := { vis := [str "k", str "k"], spare := [] },
    entries := fun key => if key = str "k" then some (some aliceEntry) else none }

/-- The record of a key in a map: the encoding of the entry the key is mapped to
(empty when there is no entry). -/
def EntryMap.record (m : EntryMap) (key : Bytes) : Bytes :=
  match m key with
  | some (some entry) => entry.encode
  | _ => []

/-- The directory record of `alice` read at the instant of `zeroEnv`: password and
forwards as stored in `aliceEntry`, but the mail directory `/home/alice`. -/
def movedRecord : VPEntry :=
  directoryEntry zeroEnv.now (str "alice") aliceEntry.Password (str "/home/alice") []

end Vptable

namespace Vptable

/-! ## Basic facts about outcomes and bytes -/

@[simp] theorem bind_done {α β : Type} (a : α) (f : α → Exec β) :
    (Exec.done a).bind f = f a := rfl

@[simp] theorem bind_panic {α β : Type} (p : Panic) (f : α → Exec β) :
    (Exec.panic p : Exec α).bind f = Exec.panic p := rfl

theorem digitByte_toNat (d : Nat) (h : d < 10) : (digitByte d).toNat = 48 + d := by
  simp [digitByte, UInt8.toNat, UInt8.ofNat]
  omega

theorem isDigit_digitByte (d : Nat) (h : d < 10) : isDigit (digitByte d) := by
  unfold isDigit
  rw [digitByte_toNat d h]
  omega

/-! ## `bytes.Split` after `bytes.Join` -/

theorem bytesSplit_ne_nil (sep : UInt8) (s : Bytes) : bytesSplit sep s ≠ [] := by
  induction s with
  | nil => simp [bytesSplit]
  | cons b rest ih =>
    unfold bytesSplit
    split
    · simp
    · split <;> simp

theorem bytesSplit_of_not_mem (sep : UInt8) (p : Bytes) (h : sep ∉ p) :
    bytesSplit sep p = [p] := by
  induction p with
  | nil => rfl
  | cons b rest ih =>
    have hb : b ≠ sep := fun e => h (by simp [e])
    have hr : sep ∉ rest := fun e => h (by simp [e])
    simp [bytesSplit, hb, ih hr]

theorem bytesSplit_append_sep (sep : UInt8) (p rest : Bytes) (h : sep ∉ p) :
    bytesSplit sep (p ++ sep :: rest) = p :: bytesSplit sep rest := by
  induction p with
  | nil => simp [bytesSplit]
  | cons b q ih =>
    have hb : b ≠ sep := fun e => h (by simp [e])
    have hq : sep ∉ q := fun e => h (by simp [e])
    simp [bytesSplit, hb, ih hq]

theorem bytesSplit_bytesJoin (sep : UInt8) (parts : List Bytes) (hne : parts ≠ [])
    (h : ∀ p ∈ parts, sep ∉ p) : bytesSplit sep (bytesJoin parts [sep]) = parts := by
  induction parts with
  | nil => exact absurd rfl hne
  | cons p rest ih =>
    cases rest with
    | nil => simpa [bytesJoin] using bytesSplit_of_not_mem sep p (h p (by simp))
    | cons q rest2 =>
      have hp : sep ∉ p := h p (by simp)
      have hrest : ∀ r ∈ q :: rest2, sep ∉ r := fun r hr => h r (List.mem_cons_of_mem _ hr)
      simp only [bytesJoin, List.append_assoc, List.singleton_append]
      rw [bytesSplit_append_sep sep p _ hp, ih (by simp) hrest]

/-! ## Decimal rendering and parsing -/

theorem parseUintLoop_step (c : UInt8) (cs : Bytes) (n d : Nat) (hd : d < 10)
    (hc : c.toNat = 48 + d) (hn : n * 10 + d < 2 ^ 64) :
    parseUintLoop (c :: cs) n = parseUintLoop cs (n * 10 + d) := by
  have h1 : 48 ≤ c.toNat ∧ c.toNat ≤ 57 := by omega
  have h2 : ¬ (n ≥ maxUint64 / 10 + 1) := by simp only [maxUint64]; omega
  have h3 : (n * 10) % 2 ^ 64 = n * 10 := Nat.mod_eq_of_lt (by omega)
  have h4 : (n * 10 + (c.toNat - 48)) % 2 ^ 64 = n * 10 + d := by
    rw [hc, Nat.add_sub_cancel_left]; exact Nat.mod_eq_of_lt hn
  have h5 : ¬ (n * 10 + d < n * 10 ∨ n * 10 + d > maxUint64) := by
    simp only [maxUint64]; omega
  simp only [parseUintLoop]
  rw [if_pos h1, if_neg h2, h3, h4, if_neg h5]

theorem parseUintLoop_formatUintLoop (fuel : Nat) :
    ∀ (u : Nat) (acc : Bytes), u < 10 ^ fuel → u < 2 ^ 64 →
      parseUintLoop (formatUintLoop fuel u acc) 0 = parseUintLoop acc u := by
  induction fuel with
  | zero => intro u acc h _; simp at h; subst h; rfl
  | succ fuel ih =>
    intro u acc hu h64
    unfold formatUintLoop
    split
    · rename_i h10
      rw [parseUintLoop_step _ acc 0 u h10 (digitByte_toNat u h10) (by omega)]
      simp
    · rename_i h10
      have hlt : u / 10 < 10 ^ fuel := by
        rw [pow_succ] at hu; omega
      rw [ih (u / 10) _ hlt (by omega),
        parseUintLoop_step _ acc (u / 10) (u % 10) (by omega)
          (digitByte_toNat (u % 10) (by omega)) (by omega)]
      congr 1; omega

theorem formatUintLoop_ne_nil (fuel : Nat) (u : Nat) (acc : Bytes) (h : 0 < fuel) :
    formatUintLoop fuel u acc ≠ [] := by
  induction fuel generalizing u acc with
  | zero => omega
  | succ fuel ih =>
    unfold formatUintLoop
    split
    · simp
    · cases fuel with
      | zero => simp [formatUintLoop]
      | succ f => exact ih _ _ (by omega)

theorem formatUintLoop_digits (fuel : Nat) :
    ∀ (u : Nat) (acc : Bytes), (∀ c ∈ acc, isDigit c) →
      ∀ c ∈ formatUintLoop fuel u acc, isDigit c := by
  induction fuel with
  | zero => intro u acc h; simpa [formatUintLoop] using h
  | succ fuel ih =>
    intro u acc h
    unfold formatUintLoop
    split
    · rename_i h10
      intro c hc
      rcases List.mem_cons.mp hc with rfl | hc
      · exact isDigit_digitByte u h10
      · exact h c hc
    · apply ih
      intro c hc
      rcases List.mem_cons.mp hc with rfl | hc
      · exact isDigit_digitByte _ (by omega)
      · exact h c hc

theorem decimalValue_formatUintLoop (fuel : Nat) :
    ∀ (u : Nat) (acc : Bytes), u < 10 ^ fuel →
      List.foldl (fun n c => n * 10 + (UInt8.toNat c - 48)) 0 (formatUintLoop fuel u acc) =
      List.foldl (fun n c => n * 10 + (UInt8.toNat c - 48)) u acc := by
  induction fuel with
  | zero => intro u acc h; simp at h; subst h; rfl
  | succ fuel ih =>
    intro u acc hu
    unfold formatUintLoop
    split
    · rename_i h10
      simp [List.foldl, digitByte_toNat u h10]
    · rename_i h10
      have hlt : u / 10 < 10 ^ fuel := by
        rw [pow_succ] at hu; omega
      rw [ih (u / 10) _ hlt]
      simp only [List.foldl, digitByte_toNat (u % 10) (by omega)]
      congr 1; omega

theorem formatUintLoop_head (fuel : Nat) :
    ∀ (u : Nat) (acc : Bytes), 1 ≤ u → u < 10 ^ fuel →
      ∃ d rest, formatUintLoop fuel u acc = d :: rest ∧ d ≠ 48 := by
  induction fuel with
  | zero => intro u acc h1 h; simp at h; omega
  | succ fuel ih =>
    intro u acc h1 hu
    unfold formatUintLoop
    split
    · rename_i h10
      refine ⟨digitByte u, acc, rfl, ?_⟩
      intro h
      have := digitByte_toNat u h10
      rw [h] at this
      have h48 : (48 : UInt8).toNat = 48 := by decide
      omega
    · rename_i h10
      have hlt : u / 10 < 10 ^ fuel := by
        rw [pow_succ] at hu; omega
      exact ih (u / 10) _ (by omega) hlt

theorem u64_lt_pow : ∀ u : Nat, u < 2 ^ 64 → u < 10 ^ 20 := by
  intro u h; omega

theorem formatUint_digits (u : Nat) : ∀ c ∈ formatUint u, isDigit c :=
  formatUintLoop_digits 20 u [] (by simp)

theorem formatUint_ne_nil (u : Nat) : formatUint u ≠ [] :=
  formatUintLoop_ne_nil 20 u [] (by omega)

theorem parseUint_formatUint (u : Nat) (h : u < 2 ^ 64) : parseUint (formatUint u) = .ok u := by
  unfold parseUint
  rw [if_neg (formatUint_ne_nil u)]
  unfold formatUint
  rw [parseUintLoop_formatUintLoop 20 u [] (u64_lt_pow u h) h]
  rfl

theorem formatUint_ne_dash (u : Nat) : formatUint u ≠ [0x2d] := by
  intro h
  have := formatUint_digits u 0x2d (by rw [h]; simp)
  revert this
  decide

theorem utoa_eq_dash_iff (u : Nat) : utoa u = [0x2d] ↔ u = maxUint64 := by
  unfold utoa
  constructor
  · intro h
    by_contra hne
    rw [if_neg hne] at h
    exact formatUint_ne_dash u h
  · intro h; rw [if_pos h]

theorem atou_utoa (u : Nat) (h : u < 2 ^ 64) : atou (utoa u) = .done u := by
  by_cases hmax : u = maxUint64
  · subst hmax
    simp [utoa, atou]
  · have hu : utoa u = formatUint u := by simp [utoa, hmax]
    rw [hu]
    unfold atou
    have hnd : ¬ ((formatUint u).length = 1 ∧ (formatUint u)[0]? = some 0x2d) := by
      rintro ⟨h1, h2⟩
      apply formatUint_ne_dash u
      match hf : formatUint u, h1, h2 with
      | [c], _, h2 => simpa using h2
    rw [if_neg hnd, parseUint_formatUint u h]

theorem utoa_no_nul (u : Nat) : (0x00 : UInt8) ∉ utoa u := by
  unfold utoa
  split
  · decide
  · intro h
    have := formatUint_digits u 0 h
    revert this
    decide

theorem uintToInt64_int64ToUint (z : Int) (h1 : -(2 : Int) ^ 63 ≤ z) (h2 : z < 2 ^ 63) :
    uintToInt64 (int64ToUint z) = z := by
  unfold uintToInt64 int64ToUint
  split <;> omega

theorem int64ToUint_lt (z : Int) : int64ToUint z < 2 ^ 64 := by
  unfold int64ToUint
  omega

/-! ## The entry codec -/

theorem header_no_nul : (0x00 : UInt8) ∉ header := by decide

/-- The record of an entry without `0x00` in its strings splits back into the twelve
fields it was joined from. -/
theorem bytesSplit_encode (e : VPEntry) (hn : e.nulFree) :
    bytesSplit 0x00 e.encode =
      [header, e.Password, e.Directory, e.Forwards, e.Personal, utoa e.HardQuota,
        utoa e.SoftQuota, utoa e.MsgSize, utoa e.MsgCount,
        utoa (int64ToUint e.ChangedAt.Unix), utoa maxUint64, []] := by
  obtain ⟨h1, h2, h3, h4⟩ := hn
  unfold VPEntry.encode
  apply bytesSplit_bytesJoin
  · simp
  · intro p hp
    simp only [List.mem_cons, List.mem_singleton, List.not_mem_nil, or_false] at hp
    rcases hp with rfl | rfl | rfl | rfl | rfl | rfl | rfl | rfl | rfl | rfl | rfl | rfl
    · exact header_no_nul
    · exact h1
    · exact h2
    · exact h3
    · exact h4
    · exact utoa_no_nul _
    · exact utoa_no_nul _
    · exact utoa_no_nul _
    · exact utoa_no_nul _
    · exact utoa_no_nul _
    · exact utoa_no_nul _
    · simp

/-- Decoding the record of an in-range, whole-second entry without `0x00` in its
strings gives the entry back. -/
theorem parseVpentry_encode_of_nulFree (e : VPEntry) (hr : e.inRange)
    (hs : e.ChangedAt.nsec = 0) (hn : e.nulFree) : parseVpentry e.encode = .done e := by
  obtain ⟨r1, r2, r3, r4, r5, r6, _⟩ := hr
  unfold parseVpentry
  simp only [bytesSplit_encode e hn, index, List.getElem?_cons_succ, List.getElem?_cons_zero,
    bind_done, atou_utoa _ r1, atou_utoa _ r2, atou_utoa _ r3, atou_utoa _ r4,
    atou_utoa _ (int64ToUint_lt _), Time.Unix, uintToInt64_int64ToUint _ r5 r6]
  cases e with
  | mk pw dir fw pers hq sq ms mc t =>
    cases t with
    | mk sec nsec =>
      simp only [timeUnix] at hs ⊢
      subst hs
      rfl

/-- C1 (as stated, refuted): the entry `nulEntry`, whose password holds a `0x00` byte,
is in range and has a whole-second timestamp, yet decoding its record returns a
different entry: every field has moved by one place. -/
theorem roundtrip_fails_with_nul_byte :
    nulEntry.inRange ∧ nulEntry.ChangedAt.nsec = 0 ∧
      parseVpentry nulEntry.encode = .done nulEntryDecoded ∧
      parseVpentry nulEntry.encode ≠ .done nulEntry := by
  decide

/-- C1 (amended): for every entry whose four strings contain no `0x00` byte, whose
four limits are unsigned 64-bit values (the sentinel `2^64-1` included) and whose
`changedAt` is a whole-second timestamp, `parseVpentry (encode e)` returns and
reproduces all nine fields of `e`. -/
theorem codec_roundtrip (e : VPEntry) (hr : e.inRange) (hs : e.ChangedAt.nsec = 0)
    (hn : e.nulFree) : parseVpentry e.encode = .done e :=
  parseVpentry_encode_of_nulFree e hr hs hn

/-- Witness for `codec_roundtrip`: the entry of account `alice`, all limits unlimited. -/
theorem codec_roundtrip_witness :
    aliceEntry.inRange ∧ aliceEntry.ChangedAt.nsec = 0 ∧ aliceEntry.nulFree ∧
      parseVpentry aliceEntry.encode = .done aliceEntry :=
  ⟨by decide, by decide, by decide,
    codec_roundtrip aliceEntry (by decide) (by decide) (by decide)⟩

/-! ## `Remove` on the backing array -/

theorem getElem?_append_cons_length {α : Type} (front : List α) (e : α) (rest : List α) :
    (front ++ e :: rest)[front.length]? = some e := by
  induction front with
  | nil => simp
  | cons a front ih => simpa using ih

theorem filter_ne_of_not_mem (key : Bytes) (l : List Bytes) (h : key ∉ l) :
    l.filter (fun k => k ≠ key) = l :=
  List.filter_eq_self.mpr (fun a ha => by
    simpa using fun h' : a = key => h (h' ▸ ha))

/-- Cells that do not hold the key are passed over: the loop reads them and leaves the
slice as it is. -/
theorem removeLoop_skip (key : Bytes) (steps : Nat) (s : Slice) :
    ∀ (mid front back : List Bytes), s.vis ++ s.spare = front ++ mid ++ back →
      (∀ e ∈ mid, e ≠ key) →
      removeLoop key (mid.length + steps) front.length s =
        removeLoop key steps (front.length + mid.length) s := by
  intro mid
  induction mid with
  | nil => intro front back _ _; simp
  | cons e mid ih =>
    intro front back hcells hne
    have hget : (s.vis ++ s.spare)[front.length]? = some e := by
      rw [hcells, List.append_assoc, List.cons_append]
      exact getElem?_append_cons_length front e _
    have hstep : (e :: mid).length + steps = (mid.length + steps) + 1 := by
      simp; omega
    rw [hstep]
    simp only [removeLoop, hget, if_neg (hne e (by simp))]
    have := ih (front ++ [e]) back (by simpa using hcells)
      (fun x hx => hne x (List.mem_cons_of_mem _ hx))
    simp only [List.length_append, List.length_singleton] at this
    rw [this]
    simp only [List.length_cons]
    congr 1
    omega

/-- One round of the loop at the cell that holds the key. -/
theorem removeLoop_hit (key : Bytes) (steps : Nat) (pre post spare : List Bytes) :
    removeLoop key (steps + 1) pre.length { vis := pre ++ key :: post, spare := spare } =
      removeLoop key steps (pre.length + 1)
        { vis := pre ++ post, spare := (key :: post).drop post.length ++ spare } := by
  have hget : ((pre ++ key :: post) ++ spare)[pre.length]? = some key := by
    rw [List.append_assoc, List.cons_append]
    exact getElem?_append_cons_length pre key _
  have htake : (pre ++ key :: post).take pre.length = pre := by simp
  have hdrop : (pre ++ key :: post).drop (pre.length + 1) = post := by
    rw [← List.drop_drop]
    simp
  have hlast : (pre ++ key :: post).drop ((pre ++ key :: post).length - 1) =
      (key :: post).drop post.length := by
    have : (pre ++ key :: post).length - 1 = pre.length + post.length := by simp
    rw [this, ← List.drop_drop]
    simp
  have hle : pre.length + 1 ≤ (pre ++ key :: post).length := by simp
  simp only [removeLoop, hget, if_true, htake, hdrop, hlast, if_pos hle]

/-- The cell that stays behind above the new length holds an old key other than the
removed one whenever keys followed it. -/
theorem mem_of_mem_drop_length (key q : Bytes) (post : List Bytes) :
    ∀ e ∈ (key :: q :: post).drop (q :: post).length, e ∈ q :: post := by
  intro e he
  have : (key :: q :: post).drop (q :: post).length = (q :: post).drop post.length := by
    simp
  rw [this] at he
  exact List.mem_of_mem_drop he

theorem length_drop_length_cons (key : Bytes) (post : List Bytes) :
    ((key :: post).drop post.length).length = 1 := by
  simp

/-- `Remove` on a slice without duplicates: the loop finishes without a panic, the
visible cells are the old ones with the key filtered out, and when the key was there
the cell that used to be last stays behind above the new length. -/
theorem removeLoop_nodup (key : Bytes) (vis spare : List Bytes) (hnd : vis.Nodup) :
    removeLoop key vis.length 0 { vis := vis, spare := spare } =
      .done { vis := vis.filter (fun k => k ≠ key),
              spare := (if key ∈ vis then vis.drop (vis.length - 1) else []) ++ spare } := by
  by_cases hmem : key ∈ vis
  · obtain ⟨pre, post, rfl⟩ := List.append_of_mem hmem
    have hpre : key ∉ pre := fun h => (List.nodup_append.mp hnd).2.2 h (by simp)
    have hpost : key ∉ post :=
      (List.nodup_cons.mp (List.nodup_append.mp hnd).2.1).1
    have hfilter : (pre ++ key :: post).filter (fun k => k ≠ key) = pre ++ post := by
      rw [List.filter_append, List.filter_cons]
      simp only [ne_eq, not_true_eq_false, decide_False, Bool.false_eq_true, if_false]
      have h1 := filter_ne_of_not_mem key pre hpre
      have h2 := filter_ne_of_not_mem key post hpost
      simp only [ne_eq] at h1 h2
      rw [h1, h2]
    have hlast : (pre ++ key :: post).drop ((pre ++ key :: post).length - 1) =
        (key :: post).drop post.length := by
      have : (pre ++ key :: post).length - 1 = pre.length + post.length := by simp
      rw [this, ← List.drop_drop]
      simp
    have h1 := removeLoop_skip key (post.length + 1)
      { vis := pre ++ key :: post, spare := spare } pre [] (key :: post ++ spare)
      (by simp) (fun e he h => hpre (h ▸ he))
    have hlen : (pre ++ key :: post).length = pre.length + (post.length + 1) := by
      simp
    simp only [List.length_nil, Nat.zero_add] at h1
    rw [hlen, h1, if_pos hmem, hfilter, removeLoop_hit, ← hlen, hlast]
    cases post with
    | nil => simp [removeLoop]
    | cons q post =>
      have h2 := removeLoop_skip key 0
        { vis := pre ++ q :: post, spare := (key :: q :: post).drop (q :: post).length ++ spare }
        (post ++ (key :: q :: post).drop (q :: post).length) (pre ++ [q]) spare (by simp)
        (by
          intro e he h
          apply hpost
          rw [← h]
          rcases List.mem_append.mp he with he | he
          · exact List.mem_cons_of_mem _ he
          · exact mem_of_mem_drop_length key q post e he)
      have hl := length_drop_length_cons key (q :: post)
      simp only [List.length_append, List.length_singleton, Nat.add_zero, hl] at h2
      simp only [List.length_cons] at h2 ⊢
      rw [h2]
      simp [removeLoop]
  · have h1 := removeLoop_skip key 0 { vis := vis, spare := spare } vis [] spare (by simp)
      (fun e he h => hmem (h ▸ he))
    simp only [List.length_nil, Nat.zero_add, Nat.add_zero] at h1
    rw [h1, if_neg hmem, filter_ne_of_not_mem key vis hmem]
    simp [removeLoop]

/-! ## The ordered table -/

theorem filter_ne_append_cons (key : Bytes) (pre post : List Bytes)
    (hnd : (pre ++ key :: post).Nodup) :
    (pre ++ key :: post).filter (fun k => k ≠ key) = pre ++ post := by
  have hpre : key ∉ pre := fun h => (List.nodup_append.mp hnd).2.2 h (by simp)
  have hpost : key ∉ post := (List.nodup_cons.mp (List.nodup_append.mp hnd).2.1).1
  rw [List.filter_append, List.filter_cons]
  simp only [ne_eq, not_true_eq_false, decide_False, Bool.false_eq_true, if_false]
  have h1 := filter_ne_of_not_mem key pre hpre
  have h2 := filter_ne_of_not_mem key post hpost
  simp only [ne_eq] at h1 h2
  rw [h1, h2]

theorem length_filter_ne_of_mem (key : Bytes) (l : List Bytes) (hnd : l.Nodup)
    (hmem : key ∈ l) : (l.filter (fun k => k ≠ key)).length + 1 = l.length := by
  obtain ⟨pre, post, rfl⟩ := List.append_of_mem hmem
  rw [filter_ne_append_cons key pre post hnd]
  simp
  omega

theorem Slice.append_vis (s : Slice) (x : Bytes) : (s.append x).vis = s.vis ++ [x] := by
  unfold Slice.append
  split <;> rfl

/-- `Remove` on a table whose order has no duplicate returns, with the key filtered
out of the order and deleted from the map. -/
theorem Remove_of_nodup (t : VPTable) (k : Bytes) (hnd : t.Users.Nodup) :
    t.Remove k = .done
      { order := { vis := t.Users.filter (fun x => x ≠ k),
                   spare := (if k ∈ t.Users then t.Users.drop (t.Users.length - 1) else []) ++
                     t.order.spare },
        entries := t.entries.delete k } := by
  obtain ⟨⟨vis, spare⟩, entries⟩ := t
  simp only [VPTable.Users] at hnd ⊢
  simp only [VPTable.Remove, removeLoop_nodup k vis spare hnd, bind_done]

theorem Upsert_Users (t : VPTable) (k : Bytes) (e : EntryPtr) :
    (t.Upsert k e).Users = if (t.entries k).isSome then t.Users else t.Users ++ [k] := by
  unfold VPTable.Upsert VPTable.Users
  split
  · rfl
  · exact Slice.append_vis _ _

theorem Upsert_entries (t : VPTable) (k : Bytes) (e : EntryPtr) (k' : Bytes) :
    (t.Upsert k e).entries k' = if k' = k then some e else t.entries k' := rfl

/-- The order invariant is kept by every run of `Upsert` and `Remove` calls, and no
call of the run panics. -/
theorem runOps_invariant (ops : List Op) :
    ∀ t : VPTable, t.Users.Nodup → (∀ k, k ∈ t.Users ↔ (t.entries k).isSome = true) →
      ∃ t', runOps ops t = .done t' ∧ t'.Users.Nodup ∧
        ∀ k, k ∈ t'.Users ↔ (t'.entries k).isSome = true := by
  induction ops with
  | nil => intro t hnd hkeys; exact ⟨t, rfl, hnd, hkeys⟩
  | cons op rest ih =>
    intro t hnd hkeys
    cases op with
    | upsert key entry =>
      simp only [runOps]
      apply ih
      · rw [Upsert_Users]
        split
        · exact hnd
        · rename_i habs
          have : key ∉ t.Users := fun h => habs ((hkeys key).mp h)
          exact List.Nodup.append hnd (by simp) (by simpa using this)
      · intro k
        rw [Upsert_Users, Upsert_entries]
        by_cases hk : k = key
        · subst hk
          simp only [if_true, Option.isSome_some, iff_true]
          split
          · rename_i hpres; exact (hkeys k).mpr hpres
          · simp
        · simp only [if_neg hk]
          split
          · exact hkeys k
          · simp only [List.mem_append, List.mem_singleton, hk, or_false]
            exact hkeys k
    | remove key =>
      simp only [runOps, Remove_of_nodup t key hnd, bind_done]
      apply ih
      · exact List.Nodup.filter _ hnd
      · intro k
        simp only [VPTable.Users, EntryMap.delete, List.mem_filter, ne_eq, decide_not,
          Bool.not_eq_eq_eq_not, Bool.not_true, decide_eq_false_iff_not]
        by_cases hk : k = key
        · subst hk; simp
        · simp only [hk, not_false_eq_true, and_true, if_false]
          exact hkeys k

/-- C2: after any finite sequence of `Upsert` and `Remove` calls on `New()` (every call
returns, none panics) `Users()` has no duplicate key, and a key is in `Users()` exactly
when it is a key of the `entries` map. -/
theorem order_invariant (ops : List Op) :
    ∃ t, runOps ops New = .done t ∧ t.Users.Nodup ∧
      ∀ k, k ∈ t.Users ↔ (t.entries k).isSome = true :=
  runOps_invariant ops New (by simp [New, VPTable.Users]) (by simp [New, VPTable.Users])

/-- C3: on a table whose order has no duplicate key, `Remove(k)` returns a table whose
order is the reference `removeSpec` (the old order with `k` filtered out): a sublist
of the old order, one shorter when `k` was there; the map is the old one without `k`;
and for an absent `k` order and map are unchanged. -/
theorem Remove_matches_removeSpec (t : VPTable) (k : Bytes) (hnd : t.Users.Nodup) :
    ∃ t', t.Remove k = .done t' ∧
      t'.Users = removeSpec k t.Users ∧
      t'.Users.Sublist t.Users ∧
      (k ∈ t.Users → t'.Users.length + 1 = t.Users.length) ∧
      (∀ k', t'.entries k' = if k' = k then none else t.entries k') ∧
      (k ∉ t.Users → t'.Users = t.Users) ∧
      (t.entries k = none → t'.entries = t.entries) := by
  refine ⟨_, Remove_of_nodup t k hnd, rfl, ?_, ?_, ?_, ?_, ?_⟩
  · exact List.filter_sublist _
  · intro hk
    exact length_filter_ne_of_mem k t.Users hnd hk
  · intro k'; rfl
  · intro hk
    exact filter_ne_of_not_mem k t.Users hk
  · intro hk
    funext k'
    simp only [EntryMap.delete]
    split
    · rename_i h; rw [h, hk]
    · rfl

/-- Witness for `Remove_matches_removeSpec`: removing `b` from the table `a, b, c`. -/
theorem Remove_matches_removeSpec_witness :
    abcTable.Users.Nodup ∧
      ∃ t', abcTable.Remove (str "b") = .done t' ∧
        t'.Users = removeSpec (str "b") abcTable.Users ∧
        t'.Users.Sublist abcTable.Users ∧
        (str "b" ∈ abcTable.Users → t'.Users.length + 1 = abcTable.Users.length) ∧
        (∀ k', t'.entries k' = if k' = str "b" then none else abcTable.entries k') ∧
        (str "b" ∉ abcTable.Users → t'.Users = abcTable.Users) ∧
        (abcTable.entries (str "b") = none → t'.entries = abcTable.entries) :=
  ⟨by decide, Remove_matches_removeSpec abcTable (str "b") (by decide)⟩

/-- On a table with an allocated map `Upsert(k, e)` of a key that is in the map leaves
`Users()` the same sequence, of a key that is not in the map gives the old sequence
with `k` appended at the end, and in both cases `Get(k)` returns `e` afterwards. -/
theorem Upsert_allocated (t : VPTable) (k : Bytes) (e : EntryPtr) :
    ((t.entries k).isSome = true → (t.Upsert k e).Users = t.Users) ∧
      (t.entries k = none → (t.Upsert k e).Users = t.Users ++ [k]) ∧
      (t.Upsert k e).Get k = e := by
  refine ⟨?_, ?_, ?_⟩
  · intro h; rw [Upsert_Users, if_pos h]
  · intro h; rw [Upsert_Users, h]; rfl
  · simp only [VPTable.Get, Upsert_entries, if_true]

/-- `Upsert` on the struct value of a table with an allocated map is `Upsert` on that
table: it returns, and the map stays allocated. -/
theorem toValue_Upsert (t : VPTable) (k : Bytes) (e : EntryPtr) :
    t.toValue.Upsert k e = .done (t.Upsert k e).toValue := rfl

/-- C4 (as stated, refuted): in the zero value `VPTable{}` the map is nil; the key `a`
is not present, and `Upsert` of it does not give `Users()` with `a` appended and
`Get(a) = e`: the assignment into the nil map panics. -/
theorem Upsert_panics_on_nil_map :
    zeroTable.entries = none ∧ zeroTable.Users = [] ∧ zeroTable.Get (str "a") = none ∧
      zeroTable.Upsert (str "a") (some aliceEntry) = .panic .nilMapWrite ∧
      (zeroTable.Upsert (str "a") (some aliceEntry)).returns = false :=
  ⟨rfl, rfl, rfl, rfl, rfl⟩

/-- C4 (amended): for every table whose `entries` map is not nil, `Upsert(k, e)` returns;
for a key that is in the map `Users()` is the same sequence as before, for a key that
is not in the map it is the old sequence with `k` appended at the end, and in both
cases `Get(k)` returns `e` afterwards. -/
theorem Upsert_stability (v : TableValue) (m : EntryMap) (k : Bytes) (e : EntryPtr)
    (hm : v.entries = some m) :
    ∃ v', v.Upsert k e = .done v' ∧
      ((m k).isSome = true → v'.Users = v.Users) ∧
      (m k = none → v'.Users = v.Users ++ [k]) ∧
      v'.Get k = e := by
  refine ⟨{ order := if (m k).isSome then v.order else v.order.append k,
            entries := some (m.set k e) }, ?_, ?_, ?_, ?_⟩
  · simp only [TableValue.Upsert, hm]
  · intro h
    simp only [TableValue.Users, h, if_true]
  · intro h
    simp only [TableValue.Users, h, Option.isSome_none, Bool.false_eq_true, if_false]
    exact Slice.append_vis _ _
  · simp only [TableValue.Get, EntryMap.set, if_true]

/-- Witness for `Upsert_stability`: in the table `a, b, c` (map allocated by `New`) the
key `b` is present and keeps its place; `d` is absent and is appended. -/
theorem Upsert_stability_witness :
    abcTable.toValue.entries = some abcTable.entries ∧
      (abcTable.entries (str "b")).isSome = true ∧
      abcTable.entries (str "d") = none ∧
      abcTable.toValue.Users = [str "a", str "b", str "c"] ∧
      (∃ v', abcTable.toValue.Upsert (str "b") none = .done v' ∧
        ((abcTable.entries (str "b")).isSome = true → v'.Users = abcTable.toValue.Users) ∧
        (abcTable.entries (str "b") = none →
          v'.Users = abcTable.toValue.Users ++ [str "b"]) ∧
        v'.Get (str "b") = none) ∧
      ∃ v', abcTable.toValue.Upsert (str "d") none = .done v' ∧
        ((abcTable.entries (str "d")).isSome = true → v'.Users = abcTable.toValue.Users) ∧
        (abcTable.entries (str "d") = none →
          v'.Users = abcTable.toValue.Users ++ [str "d"]) ∧
        v'.Get (str "d") = none :=
  ⟨rfl, by decide, by decide, by decide,
    Upsert_stability abcTable.toValue abcTable.entries (str "b") none rfl,
    Upsert_stability abcTable.toValue abcTable.entries (str "d") none rfl⟩

/-- C5: on a table whose order has no duplicate and contains `k`, `Remove(k)` returns
and a following `Upsert(k, e)` gives `Users()` equal to the old order without `k`,
followed by `k` as the last element. -/
theorem Remove_then_Upsert_appends (t : VPTable) (k : Bytes) (e : EntryPtr)
    (hnd : t.Users.Nodup) (hk : k ∈ t.Users) :
    ∃ t', t.Remove k = .done t' ∧
      (t'.Upsert k e).Users = removeSpec k t.Users ++ [k] ∧
      (t'.Upsert k e).Users.getLast? = some k ∧
      (t'.Upsert k e).Users.length = t.Users.length := by
  refine ⟨_, Remove_of_nodup t k hnd, ?_⟩
  have hU : (VPTable.Upsert
      { order := { vis := t.Users.filter (fun x => x ≠ k),
                   spare := (if k ∈ t.Users then t.Users.drop (t.Users.length - 1) else []) ++
                     t.order.spare },
        entries := t.entries.delete k } k e).Users = removeSpec k t.Users ++ [k] := by
    rw [Upsert_Users]
    simp [EntryMap.delete, VPTable.Users, removeSpec]
  refine ⟨hU, ?_, ?_⟩
  · rw [hU]; simp
  · rw [hU]
    simp only [List.length_append, List.length_singleton, removeSpec]
    exact length_filter_ne_of_mem k t.Users hnd hk

/-- Witness for `Remove_then_Upsert_appends`: the order `a, b, c` becomes `a, c, b` when
`b` is removed and upserted again. -/
theorem Remove_then_Upsert_appends_witness :
    abcTable.Users = [str "a", str "b", str "c"] ∧
      removeSpec (str "b") abcTable.Users ++ [str "b"] = [str "a", str "c", str "b"] ∧
      ∃ t', abcTable.Remove (str "b") = .done t' ∧
        (t'.Upsert (str "b") none).Users = removeSpec (str "b") abcTable.Users ++ [str "b"] ∧
        (t'.Upsert (str "b") none).Users.getLast? = some (str "b") ∧
        (t'.Upsert (str "b") none).Users.length = abcTable.Users.length :=
  ⟨by decide, by decide,
    Remove_then_Upsert_appends abcTable (str "b") none (by decide) (by decide)⟩

/-! ## Layout of a record -/

/-- C6: `encode` writes twelve fields separated by single `0x00` bytes: the header
`02 0A 01 08 01`, the four strings, the four rendered limits, the rendered
`changedAt`, the literal `-` and an empty field; so every record starts with the
header followed by `0x00` and ends with `-` followed by `0x00`. -/
theorem encode_layout (e : VPEntry) :
    e.encode =
        [0x02, 0x0a, 0x01, 0x08, 0x01] ++ [0x00] ++ e.Password ++ [0x00] ++ e.Directory ++
          [0x00] ++ e.Forwards ++ [0x00] ++ e.Personal ++ [0x00] ++ utoa e.HardQuota ++
          [0x00] ++ utoa e.SoftQuota ++ [0x00] ++ utoa e.MsgSize ++ [0x00] ++
          utoa e.MsgCount ++ [0x00] ++ utoa (int64ToUint e.ChangedAt.Unix) ++ [0x00] ++
          [0x2d] ++ [0x00] ++ [] ∧
      (∃ fields : List Bytes, fields.length = 12 ∧ e.encode = bytesJoin fields [0x00]) ∧
      (∃ rest, e.encode = [0x02, 0x0a, 0x01, 0x08, 0x01, 0x00] ++ rest) ∧
      (∃ front, e.encode = front ++ [0x2d, 0x00]) := by
  have hmax : utoa maxUint64 = [0x2d] := (utoa_eq_dash_iff maxUint64).mpr rfl
  have hlayout : e.encode =
      [0x02, 0x0a, 0x01, 0x08, 0x01] ++ [0x00] ++ e.Password ++ [0x00] ++ e.Directory ++
        [0x00] ++ e.Forwards ++ [0x00] ++ e.Personal ++ [0x00] ++ utoa e.HardQuota ++
        [0x00] ++ utoa e.SoftQuota ++ [0x00] ++ utoa e.MsgSize ++ [0x00] ++
        utoa e.MsgCount ++ [0x00] ++ utoa (int64ToUint e.ChangedAt.Unix) ++ [0x00] ++
        [0x2d] ++ [0x00] ++ [] := by
    simp only [VPEntry.encode, bytesJoin, hmax, header, List.append_assoc, List.append_nil]
  refine ⟨hlayout, ⟨_, ?_, rfl⟩, ?_, ?_⟩
  · rfl
  · exact ⟨_, by rw [hlayout]; simp only [List.append_assoc, List.cons_append,
      List.nil_append, List.append_nil]; rfl⟩
  · refine ⟨[0x02, 0x0a, 0x01, 0x08, 0x01] ++ [0x00] ++ e.Password ++ [0x00] ++ e.Directory ++
        [0x00] ++ e.Forwards ++ [0x00] ++ e.Personal ++ [0x00] ++ utoa e.HardQuota ++
        [0x00] ++ utoa e.SoftQuota ++ [0x00] ++ utoa e.MsgSize ++ [0x00] ++
        utoa e.MsgCount ++ [0x00] ++ utoa (int64ToUint e.ChangedAt.Unix) ++ [0x00], ?_⟩
    rw [hlayout]
    simp only [List.append_assoc, List.cons_append, List.nil_append, List.append_nil]

/-! ## The sentinel rule -/

theorem formatUint_canonical (u : Nat) (h : u < 2 ^ 64) : IsCanonicalDecimal (formatUint u) u := by
  refine ⟨formatUint_ne_nil u, formatUint_digits u, ?_, ?_⟩
  · intro hhead
    by_cases h0 : u = 0
    · subst h0; rfl
    · obtain ⟨d, rest, hd, hne⟩ := formatUintLoop_head 20 u [] (by omega) (u64_lt_pow u h)
      unfold formatUint at hhead
      rw [hd] at hhead
      simp only [List.head?_cons, Option.some.injEq] at hhead
      exact absurd hhead hne
  · unfold decimalValue formatUint
    rw [decimalValue_formatUintLoop 20 u [] (u64_lt_pow u h)]
    rfl

/-- C7: for every unsigned 64-bit `u`, `utoa u` is the single byte `-` exactly when
`u = 2^64-1` and otherwise the canonical decimal digits of `u`; `atou` of `-` is
`2^64-1`; and `atou (utoa u)` returns `u`, without a panic. -/
theorem sentinel_rule (u : Nat) (h : u < 2 ^ 64) :
    (utoa u = [0x2d] ↔ u = 2 ^ 64 - 1) ∧
      (u ≠ 2 ^ 64 - 1 → IsCanonicalDecimal (utoa u) u) ∧
      atou [0x2d] = .done (2 ^ 64 - 1) ∧
      atou (utoa u) = .done u := by
  refine ⟨utoa_eq_dash_iff u, ?_, rfl, atou_utoa u h⟩
  intro hne
  have : utoa u = formatUint u := by
    unfold utoa
    rw [if_neg (by simpa [maxUint64] using hne)]
  rw [this]
  exact formatUint_canonical u h

/-- Witness for `sentinel_rule`: the value `12345`. -/
theorem sentinel_rule_witness :
    (12345 : Nat) < 2 ^ 64 ∧ utoa 12345 = str "12345" ∧ atou (utoa 12345) = .done 12345 :=
  ⟨by decide, by decide, (sentinel_rule 12345 (by decide)).2.2.2⟩

/-! ## Malformed records -/

theorem le_foldl_decimal (cs : Bytes) :
    ∀ n : Nat, n ≤ List.foldl (fun n c => n * 10 + (UInt8.toNat c - 48)) n cs := by
  induction cs with
  | nil => intro n; exact Nat.le_refl n
  | cons c cs ih =>
    intro n
    simp only [List.foldl]
    exact Nat.le_trans (by omega) (ih _)

/-- `ParseUint` succeeds exactly on digit strings whose value fits 64 bits, and then
returns that value. -/
theorem parseUintLoop_ok_iff (cs : Bytes) :
    ∀ n v : Nat, n < 2 ^ 64 →
      (parseUintLoop cs n = .ok v ↔
        (∀ c ∈ cs, isDigit c) ∧
          List.foldl (fun n c => n * 10 + (UInt8.toNat c - 48)) n cs = v ∧ v < 2 ^ 64) := by
  induction cs with
  | nil =>
    intro n v hn
    simp only [parseUintLoop, Except.ok.injEq, List.not_mem_nil, false_implies, implies_true,
      List.foldl, true_and]
    constructor
    · intro h; subst h; exact ⟨rfl, hn⟩
    · intro h; exact h.1
  | cons c cs ih =>
    intro n v hn
    have hfold := le_foldl_decimal cs (n * 10 + (c.toNat - 48))
    by_cases hc : 48 ≤ c.toNat ∧ c.toNat ≤ 57
    · by_cases hcut : n ≥ maxUint64 / 10 + 1
      · simp only [parseUintLoop, if_pos hc, if_pos hcut, List.foldl]
        simp only [maxUint64] at hcut
        constructor
        · intro h; cases h
        · rintro ⟨_, h2, h3⟩; omega
      · simp only [maxUint64] at hcut
        have h3 : (n * 10) % 2 ^ 64 = n * 10 := Nat.mod_eq_of_lt (by omega)
        by_cases hov : n * 10 + (c.toNat - 48) < 2 ^ 64
        · have h4 : (n * 10 + (c.toNat - 48)) % 2 ^ 64 = n * 10 + (c.toNat - 48) :=
            Nat.mod_eq_of_lt hov
          have h5 : ¬ (n * 10 + (c.toNat - 48) < n * 10 ∨
              n * 10 + (c.toNat - 48) > maxUint64) := by
            simp only [maxUint64]; omega
          have hstep : parseUintLoop (c :: cs) n =
              parseUintLoop cs (n * 10 + (c.toNat - 48)) := by
            simp only [parseUintLoop]
            rw [if_pos hc, if_neg (by simp only [maxUint64]; omega), h3, h4, if_neg h5]
          rw [hstep, ih _ v hov]
          simp only [List.mem_cons, forall_eq_or_imp, List.foldl, isDigit, hc, true_and]
        · have h4 : (n * 10 + (c.toNat - 48)) % 2 ^ 64 < n * 10 := by omega
          have hstep : parseUintLoop (c :: cs) n = .error .outOfRange := by
            simp only [parseUintLoop]
            rw [if_pos hc, if_neg (by simp only [maxUint64]; omega), h3, if_pos (Or.inl h4)]
          rw [hstep]
          simp only [List.foldl]
          constructor
          · intro h; cases h
          · rintro ⟨_, h2, h3⟩; omega
    · simp only [parseUintLoop, if_neg hc]
      constructor
      · intro h; cases h
      · rintro ⟨h1, _⟩
        exact absurd (h1 c (by simp)) hc

theorem parseUint_ok_iff (f : Bytes) (v : Nat) :
    parseUint f = .ok v ↔
      f ≠ [] ∧ (∀ c ∈ f, isDigit c) ∧ decimalValue f = v ∧ v < 2 ^ 64 := by
  unfold parseUint decimalValue
  by_cases hf : f = []
  · simp [hf]
  · rw [if_neg hf, parseUintLoop_ok_iff f 0 v (by omega)]
    simp [hf]

/-- `atou` returns exactly on the fields the specification calls valid numbers. -/
theorem atou_returns_iff (f : Bytes) : (atou f).returns = true ↔ validNumber f := by
  unfold atou validNumber
  by_cases hdash : f = [0x2d]
  · subst hdash
    simp [Exec.returns]
  · have hcond : ¬ (f.length = 1 ∧ f[0]? = some 0x2d) := by
      rintro ⟨h1, h2⟩
      apply hdash
      match f, h1, h2 with
      | [c], _, h2 => simpa using h2
    rw [if_neg hcond]
    cases hp : parseUint f with
    | ok v =>
      have := (parseUint_ok_iff f v).mp hp
      simp only [Exec.returns, hdash, false_or, true_iff]
      exact ⟨this.1, this.2.1, by rw [this.2.2.1]; exact this.2.2.2⟩
    | error e =>
      simp only [Exec.returns, hdash, false_or, Bool.false_eq_true, false_iff]
      rintro ⟨h1, h2, h3⟩
      have := (parseUint_ok_iff f (decimalValue f)).mpr ⟨h1, h2, rfl, h3⟩
      rw [hp] at this
      cases this

theorem atou_panic_kind (f : Bytes) (p : Panic) (h : atou f = .panic p) :
    ∃ e, p = .numError e := by
  unfold atou at h
  split at h
  · cases h
  · split at h
    · cases h
    · rename_i err _
      cases h
      exact ⟨err, rfl⟩

theorem returns_eq_true_iff {α : Type} (x : Exec α) : x.returns = true ↔ ∃ a, x = .done a := by
  cases x <;> simp [Exec.returns]

/-- The decoder returns exactly on records of at least ten fields whose fields 5 to 9
are valid numbers; on any other record it panics: with an index panic when there are
at most five fields, with the `ParseUint` error when all ten fields are there. -/
theorem parseVpentry_outcome (b : Bytes) :
    ((parseVpentry b).returns = true ↔
        10 ≤ (bytesSplit 0x00 b).length ∧
          ∀ f ∈ ((bytesSplit 0x00 b).drop 5).take 5, validNumber f) ∧
      ((bytesSplit 0x00 b).length ≤ 5 → parseVpentry b = .panic .indexOutOfRange) ∧
      (10 ≤ (bytesSplit 0x00 b).length → (parseVpentry b).returns = false →
        ∃ e, parseVpentry b = .panic (.numError e)) := by
  unfold parseVpentry
  simp only [← atou_returns_iff]
  generalize bytesSplit 0x00 b = parts
  rcases parts with _ | ⟨p0, _ | ⟨p1, _ | ⟨p2, _ | ⟨p3, _ | ⟨p4, _ | ⟨p5, _ | ⟨p6, _ | ⟨p7,
    _ | ⟨p8, _ | ⟨p9, rest⟩⟩⟩⟩⟩⟩⟩⟩⟩⟩
  case cons.cons.cons.cons.cons.cons.cons.cons.cons.cons =>
    rcases h5 : atou p5 with u5 | e5
    · rcases h6 : atou p6 with u6 | e6
      · rcases h7 : atou p7 with u7 | e7
        · rcases h8 : atou p8 with u8 | e8
          · rcases h9 : atou p9 with u9 | e9
            · simp [index, Exec.returns, h5, h6, h7, h8, h9]
            · obtain ⟨e, rfl⟩ := atou_panic_kind p9 e9 h9
              simp [index, Exec.returns, h5, h6, h7, h8, h9]
          · obtain ⟨e, rfl⟩ := atou_panic_kind p8 e8 h8
            simp [index, Exec.returns, h5, h6, h7, h8]
        · obtain ⟨e, rfl⟩ := atou_panic_kind p7 e7 h7
          simp [index, Exec.returns, h5, h6, h7]
      · obtain ⟨e, rfl⟩ := atou_panic_kind p6 e6 h6
        simp [index, Exec.returns, h5, h6]
    · obtain ⟨e, rfl⟩ := atou_panic_kind p5 e5 h5
      simp [index, Exec.returns, h5]
  all_goals
    simp only [index, List.getElem?_cons_succ, List.getElem?_cons_zero, List.getElem?_nil,
      bind_done, bind_panic, List.length_cons, List.length_nil]
    first
      | (refine ⟨?_, ?_, ?_⟩ <;> simp [Exec.returns]; done)
      | (rcases h5 : atou p5 with u5 | e5
         · first
            | (refine ⟨?_, ?_, ?_⟩ <;> simp [Exec.returns]; done)
            | (rcases h6 : atou p6 with u6 | e6
               · first
                  | (refine ⟨?_, ?_, ?_⟩ <;> simp [Exec.returns]; done)
                  | (rcases h7 : atou p7 with u7 | e7
                     · first
                        | (refine ⟨?_, ?_, ?_⟩ <;> simp [Exec.returns]; done)
                        | (rcases h8 : atou p8 with u8 | e8
                           · refine ⟨?_, ?_, ?_⟩ <;> simp [Exec.returns]
                           · refine ⟨?_, ?_, ?_⟩ <;> simp [Exec.returns])
                     · refine ⟨?_, ?_, ?_⟩ <;> simp [Exec.returns])
               · refine ⟨?_, ?_, ?_⟩ <;> simp [Exec.returns])
         · refine ⟨?_, ?_, ?_⟩ <;> simp [Exec.returns])

/-- The loading loop returns exactly when every stored value decodes; a panic of the
decoder is not recovered. -/
theorem loadLoop_returns_iff (pairs : List (Bytes × Bytes)) :
    ∀ t : VPTable, (loadLoop pairs t).returns = true ↔
      ∀ kv ∈ pairs, (parseVpentry kv.2).returns = true := by
  induction pairs with
  | nil => intro t; simp [loadLoop, Exec.returns]
  | cons kv rest ih =>
    intro t
    obtain ⟨key, value⟩ := kv
    simp only [loadLoop, List.mem_cons, forall_eq_or_imp]
    cases hp : parseVpentry value with
    | done entry =>
      simp only [bind_done, ih]
      simp [Exec.returns]
    | panic p => simp [Exec.returns]

/-- C8 (as stated, refuted): a record of three fields makes `parseVpentry` panic with an
index out of range, a record whose hard quota is `12MB` makes it panic with the
`ParseUint` syntax error, and `LoadFromFile` on a container holding the short record
panics as well: no error value reaches the caller. -/
theorem decode_panics_on_malformed :
    (bytesSplit 0x00 shortRecord).length = 3 ∧
      parseVpentry shortRecord = .panic .indexOutOfRange ∧
      parseVpentry badQuotaRecord = .panic (.numError .badSyntax) ∧
      (LoadFromFile (.ok [(str "bob", shortRecord)])).returns = false ∧
      (LoadFromFile (.ok [(str "bob", badQuotaRecord)])).returns = false := by
  refine ⟨by decide, by decide, by decide, ?_, ?_⟩ <;> rfl

/-- C8 (amended): `parseVpentry` has no error result. It returns an entry exactly when
the input splits into at least ten fields and fields 5 to 9 are each `-` or an
unsigned decimal integer below `2^64`; on any other input it panics (index out of
range for at most five fields, the `ParseUint` error when ten fields are there).
`LoadFromFile` on an opened container returns exactly when every value decodes, then
with a table and a nil error; otherwise the panic of the decoder unwinds through
it. -/
theorem decode_outcome (b : Bytes) (pairs : List (Bytes × Bytes)) :
    ((parseVpentry b).returns = true ↔
        10 ≤ (bytesSplit 0x00 b).length ∧
          ∀ f ∈ ((bytesSplit 0x00 b).drop 5).take 5, validNumber f) ∧
      ((bytesSplit 0x00 b).length ≤ 5 → parseVpentry b = .panic .indexOutOfRange) ∧
      (10 ≤ (bytesSplit 0x00 b).length → (parseVpentry b).returns = false →
        ∃ e, parseVpentry b = .panic (.numError e)) ∧
      ((LoadFromFile (.ok pairs)).returns = true ↔
        ∀ kv ∈ pairs, (parseVpentry kv.2).returns = true) ∧
      (∀ err, LoadFromFile (.ok pairs) ≠ .done (.error err)) := by
  obtain ⟨h1, h2, h3⟩ := parseVpentry_outcome b
  refine ⟨h1, h2, h3, ?_, ?_⟩
  · rw [← loadLoop_returns_iff pairs
      { order := { vis := [], spare := [] }, entries := fun _ => none }]
    unfold LoadFromFile
    simp only
    cases loadLoop pairs { order := { vis := [], spare := [] }, entries := fun _ => none } <;>
      simp [Exec.returns]
  · intro err
    unfold LoadFromFile
    simp only
    cases loadLoop pairs { order := { vis := [], spare := [] }, entries := fun _ => none } <;>
      simp

/-! ## `UpdatePassword` -/

/-- The stored hash `$1$<salt>$<hash>` splits on `$` into an empty piece, `1`, the salt
and the pieces of the hash. -/
theorem bytesSplit_password (salt hash : Bytes) (hsalt : (0x24 : UInt8) ∉ salt) :
    bytesSplit 0x24 (str "$1$" ++ salt ++ str "$" ++ hash) =
      [] :: [0x31] :: salt :: bytesSplit 0x24 hash := by
  have h1 : (str "$1$" : Bytes) = [0x24, 0x31, 0x24] := by decide
  have h2 : (str "$" : Bytes) = [0x24] := by decide
  have h3 : ¬ ((0x31 : UInt8) = 0x24) := by decide
  have h4 : ([0x24, 0x31, 0x24] : Bytes) ++ salt ++ [0x24] ++ hash =
      0x24 :: 0x31 :: 0x24 :: (salt ++ 0x24 :: hash) := by simp
  rw [h1, h2, h4]
  simp only [bytesSplit, if_true, if_neg h3, bytesSplit_append_sep 0x24 salt hash hsalt]

theorem getSalt_eq (rnd : Nat → Nat) (pos : Nat) :
    getSalt rnd pos =
      ((List.range 8).map (fun i => saltSrc.getD (rnd (pos + i) % saltSrc.length) 0),
        pos + 8) := by
  simp [getSalt, getSaltLoop, saltLength, List.range, List.range.loop]

theorem getD_mem_saltSrc (x : Nat) : saltSrc.getD (x % saltSrc.length) 0 ∈ saltSrc := by
  have hlen : saltSrc.length = 64 := by decide
  have hx : x % saltSrc.length < saltSrc.length := Nat.mod_lt _ (by rw [hlen]; omega)
  rw [List.getD_eq_getElem _ _ hx]
  exact List.getElem_mem _

/-- C9: when the stored hash is `$1$<salt>$<hash>` and crypt of the password with the
setting `$1$<salt>$` gives exactly the stored hash, `UpdatePassword` returns
`(false, nil)`, every field of the entry is as before, and no random draw was made. -/
theorem UpdatePassword_stable (env : Env) (pos : Nat) (v : VPEntry) (p salt hash : Bytes)
    (hform : v.Password = str "$1$" ++ salt ++ str "$" ++ hash)
    (hsalt : (0x24 : UInt8) ∉ salt)
    (hmatch : env.crypt p (str "$1$" ++ salt ++ str "$") = .ok v.Password) :
    v.UpdatePassword env pos p =
      .done { changed := false, err := none, entry := v, pos := pos } := by
  unfold VPEntry.UpdatePassword
  have hsplit : bytesSplit 0x24 v.Password = [] :: [0x31] :: salt :: bytesSplit 0x24 hash := by
    rw [hform]; exact bytesSplit_password salt hash hsalt
  simp only [hsplit, index, List.getElem?_cons_succ, List.getElem?_cons_zero, bind_done, hmatch,
    if_true]

/-- Witness for `UpdatePassword_stable`: the stored hash of `secretEntry` matches the
password `secret`. -/
theorem UpdatePassword_stable_witness :
    secretEntry.Password = str "$1$" ++ str "abcdefgh" ++ str "$" ++ str "secret" ∧
      (0x24 : UInt8) ∉ str "abcdefgh" ∧
      zeroEnv.crypt (str "secret") (str "$1$" ++ str "abcdefgh" ++ str "$") =
        .ok secretEntry.Password ∧
      secretEntry.UpdatePassword zeroEnv 3 (str "secret") =
        .done { changed := false, err := none, entry := secretEntry, pos := 3 } :=
  ⟨by decide, by decide, by decide,
    UpdatePassword_stable zeroEnv 3 secretEntry (str "secret") (str "abcdefgh") (str "secret")
      (by decide) (by decide) (by decide)⟩

/-- C10 (as stated, refuted): with a random source that yields `0` at every draw the
fresh salt is `........`; for the entry `dotSaltEntry`, whose stored salt is
`........` too, and the non-matching password `new`, `UpdatePassword` returns
`(true, nil)` and stores a hash whose salt equals the original salt. -/
theorem fresh_salt_may_equal_old_salt :
    dotSaltEntry.Password = str "$1$" ++ str "........" ++ str "$" ++ str "old" ∧
      zeroEnv.crypt (str "new") (str "$1$" ++ str "........" ++ str "$") =
        .ok (str "$1$........$new") ∧
      str "$1$........$new" ≠ dotSaltEntry.Password ∧
      (getSalt zeroEnv.rnd 0).1 = str "........" ∧
      dotSaltEntry.UpdatePassword zeroEnv 0 (str "new") =
        .done { changed := true, err := none,
                entry := { dotSaltEntry with
                  Password := str "$1$" ++ str "........" ++ str "$" ++ str "new",
                  ChangedAt := zeroEnv.now },
                pos := 8 } := by
  decide

/-- C10 (amended): when the stored hash is `$1$<salt>$<hash>`, crypt of the password
under the stored salt succeeds with another hash and crypt under the fresh salt
succeeds, `UpdatePassword` returns `(true, nil)`, the stored hash becomes
`crypt(p, "$1$" + s + "$")` for the salt `s` of the next eight random draws (eight
characters of the salt alphabet; nothing keeps `s` apart from the old salt),
`changedAt` becomes the current time and the other fields stay. -/
theorem UpdatePassword_rotates (env : Env) (pos : Nat) (v : VPEntry)
    (p salt hash newPwdOldSalt newPwd : Bytes)
    (hform : v.Password = str "$1$" ++ salt ++ str "$" ++ hash)
    (hsalt : (0x24 : UInt8) ∉ salt)
    (hold : env.crypt p (str "$1$" ++ salt ++ str "$") = .ok newPwdOldSalt)
    (hne : newPwdOldSalt ≠ v.Password)
    (hnew : env.crypt p (str "$1$" ++ (getSalt env.rnd pos).1 ++ str "$") = .ok newPwd) :
    v.UpdatePassword env pos p =
        .done { changed := true, err := none,
                entry := { v with Password := newPwd, ChangedAt := env.now },
                pos := pos + 8 } ∧
      (getSalt env.rnd pos).1 =
        (List.range 8).map (fun i => saltSrc.getD (env.rnd (pos + i) % saltSrc.length) 0) ∧
      (getSalt env.rnd pos).1.length = 8 ∧
      ∀ c ∈ (getSalt env.rnd pos).1, c ∈ saltSrc := by
  have hsplit : bytesSplit 0x24 v.Password = [] :: [0x31] :: salt :: bytesSplit 0x24 hash := by
    rw [hform]; exact bytesSplit_password salt hash hsalt
  have hpos : (getSalt env.rnd pos).2 = pos + 8 := by rw [getSalt_eq]
  have hval : (getSalt env.rnd pos).1 =
      (List.range 8).map (fun i => saltSrc.getD (env.rnd (pos + i) % saltSrc.length) 0) := by
    rw [getSalt_eq]
  refine ⟨?_, hval, ?_, ?_⟩
  · unfold VPEntry.UpdatePassword
    simp only [hsplit, index, List.getElem?_cons_succ, List.getElem?_cons_zero, bind_done, hold,
      if_neg hne, hnew, hpos]
  · rw [hval]; simp
  · intro c hc
    rw [hval] at hc
    obtain ⟨i, _, rfl⟩ := List.mem_map.mp hc
    exact getD_mem_saltSrc _

/-- Witness for `UpdatePassword_rotates`: `secretEntry` (salt `abcdefgh`) and the new
password `new`; the fresh salt is `........`. -/
theorem UpdatePassword_rotates_witness :
    (secretEntry.UpdatePassword zeroEnv 0 (str "new") =
        .done { changed := true, err := none,
                entry := { secretEntry with
                  Password := str "$1$........$new", ChangedAt := zeroEnv.now },
                pos := 0 + 8 }) ∧
      (getSalt zeroEnv.rnd 0).1 = str "........" :=
  ⟨(UpdatePassword_rotates zeroEnv 0 secretEntry (str "new") (str "abcdefgh") (str "secret")
      (str "$1$abcdefgh$new") (str "$1$........$new")
      (by decide) (by decide) (by decide) (by decide) (by decide)).1,
    by decide⟩

/-! ## Failures of `UpdatePassword` -/

/-- A stored hash with fewer than two `$` has no third piece: the index expression
`oldPwdParts[2]` panics before crypt is called. -/
theorem UpdatePassword_of_short_split (env : Env) (pos : Nat) (v : VPEntry) (p : Bytes)
    (h : (bytesSplit 0x24 v.Password).length ≤ 2) :
    v.UpdatePassword env pos p = .panic .indexOutOfRange := by
  unfold VPEntry.UpdatePassword
  have hnone : (bytesSplit 0x24 v.Password)[2]? = none := List.getElem?_eq_none (by omega)
  simp only [index, hnone, bind_panic]

/-- When crypt rejects its input, on the first or on the second call, the error is
returned with `changed = false` and the entry is as before. -/
theorem UpdatePassword_crypt_error (env : Env) (pos : Nat) (v : VPEntry) (p : Bytes)
    (r : UpdateResult) (hr : v.UpdatePassword env pos p = .done r) (herr : r.err ≠ none) :
    r.changed = false ∧ r.entry = v := by
  simp only [VPEntry.UpdatePassword] at hr
  cases hi : index (bytesSplit 0x24 v.Password) 2 with
  | panic q => rw [hi] at hr; cases hr
  | done salt =>
    rw [hi] at hr
    simp only [bind_done] at hr
    split at hr
    · cases hr; exact ⟨rfl, rfl⟩
    · split at hr
      · cases hr; exact absurd rfl herr
      · split at hr
        · cases hr; exact ⟨rfl, rfl⟩
        · cases hr; exact absurd rfl herr

/-- C11 (the code at the failing input): for the entry `emptyHashEntry`, whose stored
hash is the empty string, `UpdatePassword` does not return an error: whatever crypt,
random source, clock and password, it panics with an index out of range. -/
theorem UpdatePassword_panics_on_empty_hash (env : Env) (pos : Nat) (p : Bytes) :
    emptyHashEntry.Password = [] ∧
      (bytesSplit 0x24 emptyHashEntry.Password).length = 1 ∧
      emptyHashEntry.UpdatePassword env pos p = .panic .indexOutOfRange :=
  ⟨rfl, rfl, UpdatePassword_of_short_split env pos emptyHashEntry p (by decide)⟩

/-! ## `SaveToFile` -/

/-- The record `SaveToFile` writes for a key: the encoding of the entry the key is
mapped to. -/
theorem saveLoop_puts (w : Writer) (entries : EntryMap) (keys : List Bytes) :
    ∀ puts written : List (Bytes × Bytes),
      (∀ k ∈ keys, ∃ e, entries k = some (some e)) →
      ∃ written', saveLoop w entries keys puts written =
        .done (puts ++ keys.map (fun k => (k, entries.record k)), written') := by
  induction keys with
  | nil => intro puts written _; exact ⟨written, by simp [saveLoop]⟩
  | cons key rest ih =>
    intro puts written h
    obtain ⟨e, he⟩ := h key (by simp)
    have hrest : ∀ k ∈ rest, ∃ e, entries k = some (some e) :=
      fun k hk => h k (List.mem_cons_of_mem _ hk)
    simp only [saveLoop, he]
    cases w.putErr puts.length with
    | none =>
      obtain ⟨written', hw⟩ := ih (puts ++ [(key, e.encode)]) (written ++ [(key, e.encode)]) hrest
      exact ⟨written', by simp [hw, he, EntryMap.record]⟩
    | some err =>
      obtain ⟨written', hw⟩ := ih (puts ++ [(key, e.encode)]) written hrest
      exact ⟨written', by simp [hw, he, EntryMap.record]⟩

/-- With a writer that accepts every `Put`, what is written is what is put. -/
theorem saveLoop_written (w : Writer) (entries : EntryMap) (hw : ∀ n, w.putErr n = none)
    (keys : List Bytes) :
    ∀ puts written r, saveLoop w entries keys puts written = .done r → puts = written →
      r.1 = r.2 := by
  induction keys with
  | nil =>
    intro puts written r h heq
    simp only [saveLoop] at h
    cases h
    exact heq
  | cons key rest ih =>
    intro puts written r h heq
    simp only [saveLoop] at h
    split at h
    · rw [hw] at h
      exact ih _ _ r h (by rw [heq])
    · cases h

theorem entries_nonnil_of_invariant (t : VPTable) (hinv : t.orderInvariant)
    (hnn : ∀ k, t.entries k ≠ some none) :
    ∀ k ∈ t.Users, ∃ e, t.entries k = some (some e) := by
  intro k hk
  have hs := (hinv.2 k).mp hk
  cases hek : t.entries k with
  | none => rw [hek] at hs; cases hs
  | some ptr =>
    cases ptr with
    | none => exact absurd hek (hnn k)
    | some e => exact ⟨e, rfl⟩

/-- `SaveToFile` returns the error of `cdb.Create` and no other. -/
theorem SaveToFile_err (w : Writer) (t : VPTable) (r : SaveResult)
    (h : t.SaveToFile w = .done r) : r.err = w.createErr := by
  unfold VPTable.SaveToFile at h
  split at h
  · rename_i err hc
    cases h
    exact hc.symm
  · rename_i hc
    cases hl : saveLoop w t.entries t.order.vis [] [] with
    | panic p => rw [hl] at h; cases h
    | done pr =>
      rw [hl] at h
      cases h
      exact hc.symm

/-- On a table with the order invariant and no nil entry `SaveToFile` returns once the
file is created, and has put one record per key of `Users()`, in that order. -/
theorem SaveToFile_of_nonnil (w : Writer) (t : VPTable) (hinv : t.orderInvariant)
    (hnn : ∀ k, t.entries k ≠ some none) (hc : w.createErr = none) :
    ∃ r, t.SaveToFile w = .done r ∧ r.err = none ∧
      r.puts = t.Users.map (fun k => (k, t.entries.record k)) ∧
      ((∀ n, w.putErr n = none) → r.written = r.puts) ∧
      r.finalized = w.closeErr.isNone := by
  obtain ⟨written', hl⟩ := saveLoop_puts w t.entries t.Users [] []
    (entries_nonnil_of_invariant t hinv hnn)
  simp only [VPTable.Users] at hl
  refine ⟨{ err := none, puts := [] ++ t.order.vis.map (fun k => (k, t.entries.record k)),
            written := written', finalized := w.closeErr.isNone }, ?_, rfl, ?_, ?_, rfl⟩
  · simp only [VPTable.SaveToFile, hc, hl, bind_done]
  · simp [VPTable.Users]
  · intro hw
    exact (saveLoop_written w t.entries hw t.order.vis [] [] _ hl rfl).symm

theorem nilTable_orderInvariant : nilTable.orderInvariant := by
  refine ⟨by decide, ?_⟩
  intro k
  simp only [nilTable, VPTable.Upsert, New, VPTable.Users, EntryMap.set, Slice.append]
  by_cases hk : k = str "a" <;> simp [hk]

theorem abcTable_orderInvariant : abcTable.orderInvariant := by
  obtain ⟨t, ht, hn, hk⟩ := runOps_invariant
    [.upsert (str "a") (some aliceEntry), .upsert (str "b") (some aliceEntry),
      .upsert (str "c") (some aliceEntry)] New (by simp [New, VPTable.Users])
    (by simp [New, VPTable.Users])
  have : t = abcTable := by
    have h2 : Exec.done abcTable = Exec.done t := ht
    cases h2
    rfl
  subst this
  exact ⟨hn, hk⟩

theorem abcTable_nonnil : ∀ k, abcTable.entries k ≠ some none := by
  intro k
  simp only [abcTable, VPTable.Upsert, New, EntryMap.set]
  by_cases h1 : k = str "c"
  · simp [h1]
  · by_cases h2 : k = str "b"
    · simp [h1, h2]
    · by_cases h3 : k = str "a" <;> simp [h1, h2, h3]

/-- C12 (as stated, refuted): the table `nilTable`, in which key `a` is mapped to the
nil pointer, satisfies the order invariant, yet `SaveToFile` puts no pair for `a`: the
call `v.entries[key].encode()` panics. -/
theorem SaveToFile_panics_on_nil_entry :
    nilTable.orderInvariant ∧ nilTable.Users = [str "a"] ∧
      nilTable.entries (str "a") = some none ∧
      nilTable.SaveToFile goodWriter = .panic .nilDeref :=
  ⟨nilTable_orderInvariant, by decide, by decide, by decide⟩

/-- C12 (amended): for every table that satisfies the order invariant and has no nil
entry, once the container file is created `SaveToFile` returns and the pairs it put
are, for each key `k` of `Users()` in sequence, the pair of `k` and the encoding of
`entries[k]`: one pair per entry, none added, none skipped; a second save of the
unchanged table, with whatever writer, puts the same sequence. -/
theorem SaveToFile_puts_in_order (w w2 : Writer) (t : VPTable) (hinv : t.orderInvariant)
    (hnn : ∀ k, t.entries k ≠ some none) (hc : w.createErr = none)
    (hc2 : w2.createErr = none) :
    ∃ r r2, t.SaveToFile w = .done r ∧ t.SaveToFile w2 = .done r2 ∧
      r.puts.map Prod.fst = t.Users ∧
      r.puts.length = t.Users.length ∧
      (∀ kv ∈ r.puts, ∃ e, t.Get kv.1 = some e ∧ kv.2 = e.encode) ∧
      r.puts = t.Users.map (fun k => (k, t.entries.record k)) ∧
      r2.puts = r.puts := by
  obtain ⟨r, hr, _, hp, _, _⟩ := SaveToFile_of_nonnil w t hinv hnn hc
  obtain ⟨r2, hr2, _, hp2, _, _⟩ := SaveToFile_of_nonnil w2 t hinv hnn hc2
  refine ⟨r, r2, hr, hr2, ?_, ?_, ?_, hp, by rw [hp, hp2]⟩
  · rw [hp]; simp [Function.comp_def]
  · rw [hp]; simp
  · intro kv hkv
    rw [hp] at hkv
    obtain ⟨k, hk, rfl⟩ := List.mem_map.mp hkv
    obtain ⟨e, he⟩ := entries_nonnil_of_invariant t hinv hnn k hk
    exact ⟨e, by simp [VPTable.Get, he], by simp [EntryMap.record, he]⟩

/-- Witness for `SaveToFile_puts_in_order`: two saves of the table `a, b, c`, the second
with a writer whose `Put` fails. -/
theorem SaveToFile_puts_in_order_witness :
    abcTable.orderInvariant ∧ goodWriter.createErr = none ∧
      failingPutWriter.createErr = none ∧
      ∃ r r2, abcTable.SaveToFile goodWriter = .done r ∧
        abcTable.SaveToFile failingPutWriter = .done r2 ∧
        r.puts.map Prod.fst = abcTable.Users ∧
        r.puts.length = abcTable.Users.length ∧
        (∀ kv ∈ r.puts, ∃ e, abcTable.Get kv.1 = some e ∧ kv.2 = e.encode) ∧
        r.puts = abcTable.Users.map (fun k => (k, abcTable.entries.record k)) ∧
        r2.puts = r.puts :=
  ⟨abcTable_orderInvariant, rfl, rfl,
    SaveToFile_puts_in_order goodWriter failingPutWriter abcTable abcTable_orderInvariant
      abcTable_nonnil rfl rfl⟩

/-- C13 (the code at the failing input): saving the table with the one account `alice`
through a writer whose `Put` fails returns a nil error although no pair was written,
and through a writer whose `Close` fails returns a nil error although the file was
not finalized. -/
theorem SaveToFile_drops_write_errors :
    failingPutWriter.putErr 0 ≠ none ∧
      aliceTable.SaveToFile failingPutWriter =
        .done { err := none, puts := [(str "alice", aliceEntry.encode)], written := [],
                finalized := true } ∧
      failingCloseWriter.closeErr ≠ none ∧
      aliceTable.SaveToFile failingCloseWriter =
        .done { err := none, puts := [(str "alice", aliceEntry.encode)],
                written := [(str "alice", aliceEntry.encode)], finalized := false } :=
  ⟨by decide, rfl, by decide, rfl⟩

/-! ## Saving and loading again -/

/-- Loading the records of a list of keys: each key is appended to the order and
mapped to the entry its record decodes to. -/
theorem loadLoop_of_records (entries : EntryMap) (keys : List Bytes) :
    ∀ t0 : VPTable,
      (∀ k ∈ keys, ∃ e, entries k = some (some e) ∧ parseVpentry e.encode = .done e) →
      ∃ t', loadLoop (keys.map (fun k => (k, entries.record k))) t0 = .done t' ∧
        t'.Users = t0.Users ++ keys ∧
        ∀ k, t'.entries k = if k ∈ keys then entries k else t0.entries k := by
  induction keys with
  | nil => intro t0 _; exact ⟨t0, rfl, by simp, by simp⟩
  | cons key rest ih =>
    intro t0 h
    obtain ⟨e, he, hp⟩ := h key (by simp)
    have hrec : entries.record key = e.encode := by simp [EntryMap.record, he]
    obtain ⟨t', hl, hu, hent⟩ := ih
      { order := t0.order.append key, entries := t0.entries.set key (some e) }
      (fun k hk => h k (List.mem_cons_of_mem _ hk))
    refine ⟨t', ?_, ?_, ?_⟩
    · simp only [List.map_cons, loadLoop, hrec, hp, bind_done]
      exact hl
    · rw [hu]
      simp [VPTable.Users, Slice.append_vis]
    · intro k
      rw [hent k]
      by_cases hk : k ∈ rest
      · simp [hk]
      · by_cases hkey : k = key
        · subst hkey
          simp [hk, EntryMap.set, he]
        · simp [hk, hkey, EntryMap.set]

/-- C14: with a container that yields on iteration the pairs that were put, in put
order, every table reached from `New()` by `Upsert` and `Remove` calls whose entries
are non-nil and round-trip through the codec is saved without error and loaded back
with the same `Users()` sequence and, under every key, the same entry. -/
theorem save_load_roundtrip (ops : List Op) (t : VPTable) (w : Writer)
    (hreach : runOps ops New = .done t)
    (hnn : ∀ k, t.entries k ≠ some none)
    (hrt : ∀ k e, t.entries k = some (some e) → parseVpentry e.encode = .done e)
    (hw : w.createErr = none ∧ (∀ n, w.putErr n = none) ∧ w.closeErr = none) :
    ∃ r t', t.SaveToFile w = .done r ∧ r.err = none ∧ r.written = r.puts ∧
      r.finalized = true ∧
      LoadFromFile (.ok r.written) = .done (.ok t') ∧
      t'.Users = t.Users ∧ (∀ k, t'.Get k = t.Get k) ∧ t'.entries = t.entries := by
  obtain ⟨t1, ht1, hnd, hkeys⟩ := runOps_invariant ops New (by simp [New, VPTable.Users])
    (by simp [New, VPTable.Users])
  have ht : t1 = t := by
    rw [hreach] at ht1
    cases ht1
    rfl
  subst ht
  have hinv : t1.orderInvariant := ⟨hnd, hkeys⟩
  obtain ⟨r, hr, herr, hputs, hwritten, hfin⟩ := SaveToFile_of_nonnil w t1 hinv hnn hw.1
  have hall : ∀ k ∈ t1.Users, ∃ e, t1.entries k = some (some e) ∧
      parseVpentry e.encode = .done e := by
    intro k hk
    obtain ⟨e, he⟩ := entries_nonnil_of_invariant t1 hinv hnn k hk
    exact ⟨e, he, hrt k e he⟩
  obtain ⟨t', hl, hu, hent⟩ := loadLoop_of_records t1.entries t1.Users
    { order := { vis := [], spare := [] }, entries := fun _ => none } hall
  have hentries : t'.entries = t1.entries := by
    funext k
    rw [hent k]
    by_cases hk : k ∈ t1.Users
    · simp [hk]
    · have hnone : t1.entries k = none := by
        cases hek : t1.entries k with
        | none => rfl
        | some p => exact absurd ((hkeys k).mpr (by simp [hek])) hk
      simp [hk, hnone]
  refine ⟨r, t', hr, herr, hwritten hw.2.1, ?_, ?_, ?_, ?_, hentries⟩
  · rw [hfin, hw.2.2]; rfl
  · rw [hwritten hw.2.1, hputs]
    simp only [LoadFromFile, hl, bind_done]
  · rw [hu]; simp [VPTable.Users]
  · intro k
    simp only [VPTable.Get, hentries]

theorem aliceTable_roundtrips :
    ∀ k e, aliceTable.entries k = some (some e) → parseVpentry e.encode = .done e := by
  intro k e h
  simp only [aliceTable, VPTable.Upsert, New, EntryMap.set] at h
  split at h
  · simp only [Option.some.injEq] at h
    subst h
    decide
  · cases h

theorem aliceTable_nonnil : ∀ k, aliceTable.entries k ≠ some none := by
  intro k
  simp only [aliceTable, VPTable.Upsert, New, EntryMap.set]
  by_cases h : k = str "alice" <;> simp [h]

/-- Witness for `save_load_roundtrip`: `New()` has no users; `alice` is upserted with
directory `./users/alice`, the table saved and loaded again. -/
theorem save_load_roundtrip_witness :
    New.Users = [] ∧
      runOps [.upsert (str "alice") (some aliceEntry)] New = .done aliceTable ∧
      ∃ r t', aliceTable.SaveToFile goodWriter = .done r ∧
        LoadFromFile (.ok r.written) = .done (.ok t') ∧
        t'.Users = [str "alice"] ∧
        (t'.Get (str "alice")).map VPEntry.Directory = some (str "./users/alice") := by
  obtain ⟨r, t', h1, _, _, _, h5, h6, h7, _⟩ :=
    save_load_roundtrip [.upsert (str "alice") (some aliceEntry)] aliceTable goodWriter rfl
      aliceTable_nonnil aliceTable_roundtrips ⟨rfl, fun _ => rfl, rfl⟩
  refine ⟨rfl, rfl, r, t', h1, h5, ?_, ?_⟩
  · rw [h6]; decide
  · rw [h7]; decide

/-! ## The sync step and `changedAt` -/

theorem Upsert_Get_of_ne (t : VPTable) (k k' : Bytes) (e : EntryPtr) (h : k' ≠ k) :
    (t.Upsert k e).Get k' = t.Get k' := by
  simp only [VPTable.Get, Upsert_entries, if_neg h]

theorem Remove_Get_of_ne (t t' : VPTable) (k k' : Bytes) (hr : t.Remove k = .done t')
    (h : k' ≠ k) : t'.Get k' = t.Get k' := by
  unfold VPTable.Remove at hr
  cases hl : removeLoop k t.order.vis.length 0 t.order with
  | panic p => simp only [hl, bind_panic] at hr; cases hr
  | done o =>
    simp only [hl, bind_done] at hr
    cases hr
    simp only [VPTable.Get, EntryMap.delete, if_neg h]

/-- C15 (as stated, refuted): `alice` is stored with `changedAt` at second 1500000000;
her directory record has the same password and forwards and another directory; after
the sync step the stored password is the same and `changedAt` is the instant the
record was read. -/
theorem sync_directory_change_sets_changedAt :
    aliceTable.Get (str "alice") = some aliceEntry ∧
      movedRecord.Password = aliceEntry.Password ∧
      movedRecord.Forwards = aliceEntry.Forwards ∧
      movedRecord.Directory ≠ aliceEntry.Directory ∧
      ((syncUser aliceTable (str "alice") movedRecord).Get (str "alice")).map
        VPEntry.Password = some aliceEntry.Password ∧
      ((syncUser aliceTable (str "alice") movedRecord).Get (str "alice")).map
        VPEntry.ChangedAt = some zeroEnv.now ∧
      zeroEnv.now ≠ aliceEntry.ChangedAt := by
  decide

/-- C15 (amended): the table operations do not touch the entries under other keys
(`Upsert` puts the given entry under its key, `Remove` deletes its key).  In the sync
step an existing account whose directory record agrees with the stored entry in
directory, forwards and password is left as it is, `changedAt` included; when the
record differs in any of the three, the stored entry is replaced by the record as a
whole, so `changedAt` becomes the record's. -/
theorem syncUser_changedAt (vpt : VPTable) (uid : Bytes) (old entry : VPEntry)
    (hold : vpt.Get uid = some old) :
    (old.Directory = entry.Directory ∧ old.Forwards = entry.Forwards ∧
        old.Password = entry.Password → syncUser vpt uid entry = vpt) ∧
      (¬ (old.Directory = entry.Directory ∧ old.Forwards = entry.Forwards ∧
          old.Password = entry.Password) →
        (syncUser vpt uid entry).Get uid = some entry ∧
          ((syncUser vpt uid entry).Get uid).map VPEntry.ChangedAt = some entry.ChangedAt) ∧
      (∀ k, k ≠ uid → (syncUser vpt uid entry).Get k = vpt.Get k) ∧
      (∀ k e, k ≠ uid → (vpt.Upsert k e).Get uid = some old) ∧
      (∀ k t', k ≠ uid → vpt.Remove k = .done t' → t'.Get uid = some old) := by
  have hget : ∀ e : EntryPtr, (vpt.Upsert uid e).Get uid = e := fun e => by
    simp only [VPTable.Get, Upsert_entries, if_true]
  refine ⟨?_, ?_, ?_, ?_, ?_⟩
  · rintro ⟨h1, h2, h3⟩
    simp [syncUser, hold, h1, h2, h3]
  · intro hne
    have hsync : syncUser vpt uid entry = vpt.Upsert uid (some entry) := by
      simp only [syncUser, hold]
      by_cases h1 : old.Directory = entry.Directory
      · by_cases h2 : old.Forwards = entry.Forwards
        · have h3 : old.Password ≠ entry.Password := fun h3 => hne ⟨h1, h2, h3⟩
          simp [h1, h2, h3]
        · simp [h2]
      · simp [h1]
    rw [hsync, hget]
    exact ⟨rfl, rfl⟩
  · intro k hk
    simp only [syncUser, hold, apply_ite (fun t : VPTable => t.Get k),
      Upsert_Get_of_ne vpt uid k _ hk, ite_self]
  · intro k e hk
    rw [Upsert_Get_of_ne vpt k uid e (Ne.symm hk), hold]
  · intro k t' hk hr
    rw [Remove_Get_of_ne vpt t' k uid hr (Ne.symm hk), hold]

/-- Witness for `syncUser_changedAt`: the stored `alice` and her record with the new
directory. -/
theorem syncUser_changedAt_witness :
    aliceTable.Get (str "alice") = some aliceEntry ∧
      ¬ (aliceEntry.Directory = movedRecord.Directory ∧
          aliceEntry.Forwards = movedRecord.Forwards ∧
          aliceEntry.Password = movedRecord.Password) ∧
      (syncUser aliceTable (str "alice") movedRecord).Get (str "alice") = some movedRecord ∧
      syncUser aliceTable (str "alice") aliceEntry = aliceTable :=
  ⟨by decide, by decide,
    ((syncUser_changedAt aliceTable (str "alice") aliceEntry movedRecord (by decide)).2.1
      (by decide)).1,
    (syncUser_changedAt aliceTable (str "alice") aliceEntry aliceEntry (by decide)).1
      ⟨rfl, rfl, rfl⟩⟩

/-! ## Loading a container with a repeated key -/

/-- C16 (the code at the failing input): both values of `dupContainer` decode, and
`LoadFromFile` returns a table whose order lists the key `k` twice. -/
theorem LoadFromFile_keeps_repeated_key :
    (∀ kv ∈ dupContainer, (parseVpentry kv.2).returns = true) ∧
      (LoadFromFile (.ok dupContainer)).result?.map (fun r => r.toOption.map VPTable.Users) =
        some (some [str "k", str "k"]) ∧
      ¬ [str "k", str "k"].Nodup := by
  decide

/-! ## The timestamp field -/

theorem encode_eq_join_fields (e : VPEntry) : e.encode = bytesJoin e.fields [0x00] := rfl

/-- C17 (as stated, refuted): for an entry changed one second before the Unix epoch the
tenth field is the one byte `-`, which is no digit; for one changed five seconds
before the epoch it is `18446744073709551611`. -/
theorem timestamp_field_before_epoch :
    preEpochEntry.fields[9]? = some [0x2d] ∧ ¬ isDigit 0x2d ∧
      (bytesSplit 0x00 preEpochEntry.encode)[9]? = some [0x2d] ∧
      earlyEntry.ChangedAt.Unix = -5 ∧
      earlyEntry.fields[9]? = some (str "18446744073709551611") := by
  decide

/-- C17 (amended): for every entry whose `changedAt` is not before the Unix epoch
(`0 ≤ Unix() < 2^63`), the tenth of the twelve fields of `encode` (the one after
`maxMessageCount`) consists of decimal digits only and is the canonical decimal
representation of `Unix()`. -/
theorem timestamp_field (e : VPEntry) (h0 : 0 ≤ e.ChangedAt.Unix)
    (h1 : e.ChangedAt.Unix < 2 ^ 63) :
    e.encode = bytesJoin e.fields [0x00] ∧ e.fields.length = 12 ∧
      e.fields[8]? = some (utoa e.MsgCount) ∧
      ∃ f, e.fields[9]? = some f ∧ (∀ c ∈ f, isDigit c) ∧
        IsCanonicalDecimal f e.ChangedAt.Unix.toNat := by
  have hu : int64ToUint e.ChangedAt.Unix = e.ChangedAt.Unix.toNat := by
    unfold int64ToUint
    omega
  have hlt : e.ChangedAt.Unix.toNat < 2 ^ 64 := by omega
  have hne : e.ChangedAt.Unix.toNat ≠ maxUint64 := by
    simp only [maxUint64]; omega
  have hf : utoa (int64ToUint e.ChangedAt.Unix) = formatUint e.ChangedAt.Unix.toNat := by
    rw [hu]; unfold utoa; rw [if_neg hne]
  refine ⟨rfl, rfl, rfl, utoa (int64ToUint e.ChangedAt.Unix), rfl, ?_, ?_⟩
  · rw [hf]; exact formatUint_digits _
  · rw [hf]; exact formatUint_canonical _ hlt

/-- Witness for `timestamp_field`: the entry of `alice`, changed at second 1500000000. -/
theorem timestamp_field_witness :
    (0 : Int) ≤ aliceEntry.ChangedAt.Unix ∧ aliceEntry.ChangedAt.Unix < 2 ^ 63 ∧
      aliceEntry.fields[9]? = some (str "1500000000") ∧
      ∃ f, aliceEntry.fields[9]? = some f ∧ (∀ c ∈ f, isDigit c) ∧
        IsCanonicalDecimal f aliceEntry.ChangedAt.Unix.toNat :=
  ⟨by decide, by decide, by decide,
    (timestamp_field aliceEntry (by decide) (by decide)).2.2.2⟩

/-! ## The removal step of the driver -/

/-- C18 (the code at the failing input): the table `a, b, c` satisfies the order
invariant and only `c` is present in the directory.  The removal loop removes `a`,
which moves `b` into the cell just read, reads `c` twice and ends: `b`, which is not
in `presentUsers`, is still in `Users()` and in `entries`. -/
theorem removeAbsent_skips_next_key :
    abcTable.orderInvariant ∧ abcTable.Users = [str "a", str "b", str "c"] ∧
      (removeAbsent [str "c"] abcTable).result?.map VPTable.Users =
        some [str "b", str "c"] ∧
      (removeAbsent [str "c"] abcTable).result?.map
        (fun t => (t.entries (str "b")).isSome) = some true ∧
      str "b" ∉ [str "c"] :=
  ⟨abcTable_orderInvariant, by decide, by decide, by decide, by decide⟩

/-! ## The codec without separator bytes in the strings -/

/-- C19: for every entry whose four strings hold no `0x00` byte and whose `changedAt` is
a whole-second timestamp of either sign, the record splits on `0x00` into exactly
twelve parts and `parseVpentry` returns the entry, equal in every field; a timestamp
before the epoch is written as its value plus `2^64`.  And there is an entry with a
`0x00` byte in a string whose record decodes to another entry. -/
theorem roundtrip_separator_free (e : VPEntry) (hr : e.inRange) (hs : e.ChangedAt.nsec = 0)
    (hn : e.nulFree) :
    (bytesSplit 0x00 e.encode).length = 12 ∧
      parseVpentry e.encode = .done e ∧
      (e.ChangedAt.Unix < 0 →
        (bytesSplit 0x00 e.encode)[9]? = some (utoa (e.ChangedAt.Unix + 2 ^ 64).toNat)) ∧
      ∃ e' : VPEntry, e'.inRange ∧ e'.ChangedAt.nsec = 0 ∧ ¬ e'.nulFree ∧
        parseVpentry e'.encode ≠ .done e' := by
  refine ⟨?_, parseVpentry_encode_of_nulFree e hr hs hn, ?_,
    ⟨nulEntry, by decide, by decide, by decide, by decide⟩⟩
  · rw [bytesSplit_encode e hn]; rfl
  · intro hneg
    obtain ⟨_, _, _, _, r5, _, _⟩ := hr
    have hu : int64ToUint e.ChangedAt.Unix = (e.ChangedAt.Unix + 2 ^ 64).toNat := by
      unfold int64ToUint
      simp only [Time.Unix] at hneg ⊢
      omega
    rw [bytesSplit_encode e hn, hu]
    rfl

/-- Witness for `roundtrip_separator_free`: an entry changed five seconds before the
epoch. -/
theorem roundtrip_separator_free_witness :
    earlyEntry.inRange ∧ earlyEntry.ChangedAt.nsec = 0 ∧ earlyEntry.nulFree ∧
      (bytesSplit 0x00 earlyEntry.encode).length = 12 ∧
      parseVpentry earlyEntry.encode = .done earlyEntry :=
  ⟨by decide, by decide, by decide,
    (roundtrip_separator_free earlyEntry (by decide) (by decide) (by decide)).1,
    (roundtrip_separator_free earlyEntry (by decide) (by decide) (by decide)).2.1⟩

/-! ## `Remove` on an order with a repeated key -/

/-- With the key in the last two cells of the order the second match finds the order
already one shorter, and `v.order[i+1:]` is out of range. -/
theorem removeLoop_repeated_key (key : Bytes) (spare : List Bytes) :
    removeLoop key 2 0 { vis := [key, key], spare := spare } = .panic .sliceBounds := by
  simp [removeLoop]

/-- C20 (the code at the failing input): loading `dupContainer`, which holds the key
`k` twice, gives the order `k, k`; on that table (`dupTable`) `Remove(k)` panics at the
slice expression `v.order[i+1:]`; and on the order `k, k, x` the loop returns with `k`
still in the order. -/
theorem Remove_fails_on_repeated_key :
    (LoadFromFile (.ok dupContainer)).result?.map (fun r => r.toOption.map VPTable.Users) =
        some (some dupTable.Users) ∧
      dupTable.Users = [str "k", str "k"] ∧
      (dupTable.Remove (str "k")).returns = false ∧
      removeLoop (str "k") 2 0 dupTable.order = .panic .sliceBounds ∧
      removeLoop (str "k") 3 0 { vis := [str "k", str "k", str "x"], spare := [] } =
        .done { vis := [str "k", str "x"], spare := [str "x"] } ∧
      str "k" ∈ [str "k", str "x"] := by
  decide

end Vptable
